import Mathlib

/-!
Shallow embedding of fs/verity/verify.c: the on-read Merkle-tree data
verifier.  Buffers are lists of naturals, tree-page reads and hashing are
explicit parameters, and the concurrently mutable memoization state is
threaded as an explicit record.  Page map/unmap and pin/unpin pairs are
recorded as events so that resource-balance properties can be stated.
-/

namespace FsVerity

/-- Bytes of a buffer, modelled as a list of naturals. -/
abbrev Bytes := List Nat

/-- Hashing of one Merkle-tree-block-sized buffer (the semantics of
fsverity_hash_block, salt included); none models failure of the
underlying crypto primitive. -/
abbrev HashFn := Bytes → Option Bytes

/-- Mirror of struct merkle_tree_params, restricted to the fields that
verify.c reads, with the hash engine folded in as hashOf. -/
structure MerkleTreeParams where
  block_size : Nat
  log_blocksize : Nat
  digest_size : Nat
  log_digestsize : Nat
  log_arity : Nat
  num_levels : Nat
  level_start : List Nat
  tree_pages : Nat
  blocks_per_page : Nat
  log_blocks_per_page : Nat
  mb_max_msgs : Nat
  hashOf : HashFn

/-- Mirror of struct fsverity_info as used by verify.c.  The Boolean field
hash_block_verified records whether the bitmap is allocated (the C pointer
being non-NULL); the bitmap contents are mutable and live in MemoState. -/
structure FsverityInfo where
  tree_params : MerkleTreeParams
  root_hash : Bytes
  hash_block_verified : Bool

/-- Mirror of the inode fields that verify.c reads. -/
structure Inode where
  i_size : Nat
  i_verity_info : FsverityInfo

/-- Mutable memoization state: the per-page PG_checked flags of the cached
Merkle-tree pages (indexed by tree page index) and the shared
hash_block_verified bitmap (indexed by tree block index). -/
structure MemoState where
  pageChecked : Nat → Bool
  bitmap : Nat → Bool

/-- Memory-barrier events issued by the memoization layer. -/
inductive MemoEvent where
  | rmb
  | wmb
deriving DecidableEq

/-- Page-reference and mapping events.  A tree page acquisition stands for
the read_merkle_tree_page pin together with its kmap_local_page; the
matching release stands for kunmap_local plus put_page.  A data view
acquisition stands for kmap_local_folio of one data block (keyed by its
file position); the release stands for its kunmap_local. -/
inductive PageEvent where
  | acqTree (idx : Nat)
  | relTree (idx : Nat)
  | acqData (pos : Nat)
  | relData (pos : Nat)
deriving DecidableEq

/-- Resources tracked by the event trace. -/
inductive Res where
  | tree (idx : Nat)
  | data (pos : Nat)
deriving DecidableEq

/-- Resource acquired by an event, if any. -/
def acqRes : PageEvent → Option Res
  | PageEvent.acqTree i => some (Res.tree i)
  | PageEvent.acqData p => some (Res.data p)
  | _ => none

/-- Resource released by an event, if any. -/
def relRes : PageEvent → Option Res
  | PageEvent.relTree i => some (Res.tree i)
  | PageEvent.relData p => some (Res.data p)
  | _ => none

/-- Number of acquisitions of resource r in a trace. -/
def acqCount (r : Res) (tr : List PageEvent) : Nat :=
  tr.countP (fun e => decide (acqRes e = some r))

/-- Number of releases of resource r in a trace. -/
def relCount (r : Res) (tr : List PageEvent) : Nat :=
  tr.countP (fun e => decide (relRes e = some r))

/-- A trace is balanced when every resource is released exactly as many
times as it is acquired. -/
def balancedTrace (tr : List PageEvent) : Prop :=
  ∀ r : Res, acqCount r tr = relCount r tr

/-- Mirror of the kernel round_down for the power-of-two divisors used by
verify.c. -/
def round_down (x n : Nat) : Nat := x - x % n

/-- Mirror of is_hash_block_verified (verify.c lines 40-100).  The hash
page is identified by its tree page index.  Returns the updated
memoization state, the answer, and the barrier events issued. -/
def is_hash_block_verified (vi : FsverityInfo) (s : MemoState)
    (hpage hblock_idx : Nat) : MemoState × Bool × List MemoEvent :=
  if vi.hash_block_verified = false then
    (s, s.pageChecked hpage, [])
  else if s.pageChecked hpage then
    (s, s.bitmap hblock_idx, [MemoEvent.rmb])
  else
    let bpp := vi.tree_params.blocks_per_page
    let base := round_down hblock_idx bpp
    let s1 : MemoState :=
      { s with bitmap := fun j => if base ≤ j ∧ j < base + bpp then false else s.bitmap j }
    let s2 : MemoState :=
      { s1 with pageChecked := fun j => if j = hpage then true else s1.pageChecked j }
    (s2, false, [MemoEvent.wmb])

/-- Mirror of the inline marking step of verify_data_block (verify.c lines
241-244): set the bitmap bit when the bitmap is allocated, else set the
page's PG_checked flag. -/
def mark_hash_block_verified (vi : FsverityInfo) (s : MemoState)
    (hpage hblock_idx : Nat) : MemoState :=
  if vi.hash_block_verified then
    { s with bitmap := fun j => if j = hblock_idx then true else s.bitmap j }
  else
    { s with pageChecked := fun j => if j = hpage then true else s.pageChecked j }

/-- Mirror of struct fsverity_pending_block: the mapped view of the data
block, its file position, and the real_hash slot. -/
structure PendingBlock where
  data : Bytes
  pos : Nat
  real_hash : Bytes
deriving DecidableEq

/-- Entry of the per-level hblocks array of verify_data_block: the page
holding the hash block, the mapped contents of the hash block, the index
of the hash block in the tree overall, and the byte offset of the wanted
hash within the block. -/
structure HBlockView where
  pageIdx : Nat
  blockBytes : Bytes
  index : Nat
  hoffset : Nat
deriving DecidableEq

/-- Environment of the verifier: the filesystem's read_merkle_tree_page
callback (tree page index and readahead hint to page contents, none on I/O
error) and whether crypto_shash_import / crypto_shash_init succeeds in
fsverity_verify_pending_blocks. -/
structure VerityEnv where
  treeRead : Nat → Nat → Option Bytes
  importOk : Bool

/-- Environment whose tree reads always succeed and return the page
contents given by pages, independently of the readahead hint, and whose
hash-state import succeeds. -/
def envOfTree (pages : Nat → Bytes) : VerityEnv :=
  { treeRead := fun idx _ => some (pages idx), importOk := true }

/-- Index of the current level hash block in the tree overall, from the
child index hidx (verify.c lines 183-186). -/
def hblockIdxStep (vi : FsverityInfo) (level hidx : Nat) : Nat :=
  vi.tree_params.level_start.getD level 0 + (hidx >>> vi.tree_params.log_arity)

/-- Index of the page holding that hash block (verify.c line 189). -/
def hpageIdxStep (vi : FsverityInfo) (level hidx : Nat) : Nat :=
  hblockIdxStep vi level hidx >>> vi.tree_params.log_blocks_per_page

/-- Byte offset of a hash block within its page (verify.c lines 192-193);
the page size is block_size times blocks_per_page. -/
def hblockOffsetInPage (vi : FsverityInfo) (hblock_idx : Nat) : Nat :=
  (hblock_idx <<< vi.tree_params.log_blocksize) %
    (vi.tree_params.block_size * vi.tree_params.blocks_per_page)

/-- Byte offset of the wanted hash within the block (verify.c lines
196-197). -/
def hoffsetStep (vi : FsverityInfo) (hidx : Nat) : Nat :=
  (hidx <<< vi.tree_params.log_digestsize) &&& (vi.tree_params.block_size - 1)

/-- Readahead hint passed to read_merkle_tree_page (verify.c lines
200-201): only at level 0, capped by the remaining tree pages. -/
def raHint (vi : FsverityInfo) (max_ra_pages level hpage_idx : Nat) : Nat :=
  if level = 0 then min max_ra_pages (vi.tree_params.tree_pages - hpage_idx) else 0

/-- Mapped view of one hash block within a fetched page (verify.c line
208: kmap_local_page(hpage) + hblock_offset_in_page, read for block_size
bytes). -/
def blockSlice (vi : FsverityInfo) (pg : Bytes) (hblock_idx : Nat) : Bytes :=
  (pg.drop (hblockOffsetInPage vi hblock_idx)).take vi.tree_params.block_size

/-- Ascent loop of verify_data_block (verify.c lines 170-221): starting at
level, ascend levelsLeft levels, collecting unverified hash blocks in held
(most recently collected level first), until a verified hash block or the
root is reached.  Returns none on a tree-page read error, else the target
digest to start the descent from, together with the updated memoization
state, the held views, and the trace of page events. -/
def ascentLoop (env : VerityEnv) (vi : FsverityInfo) (max_ra_pages : Nat) :
    Nat → Nat → Nat → MemoState → List HBlockView →
    Option Bytes × MemoState × List HBlockView × List PageEvent
  | 0, _level, _hidx, s, held => (some vi.root_hash, s, held, [])
  | levelsLeft + 1, level, hidx, s, held =>
    let next_hidx := hidx >>> vi.tree_params.log_arity
    let hblock_idx := hblockIdxStep vi level hidx
    let hpage_idx := hpageIdxStep vi level hidx
    match env.treeRead hpage_idx (raHint vi max_ra_pages level hpage_idx) with
    | none => (none, s, held, [])
    | some pg =>
      let haddr := blockSlice vi pg hblock_idx
      let s1 := (is_hash_block_verified vi s hpage_idx hblock_idx).1
      if (is_hash_block_verified vi s hpage_idx hblock_idx).2.1 then
        (some ((haddr.drop (hoffsetStep vi hidx)).take vi.tree_params.digest_size), s1, held,
          [PageEvent.acqTree hpage_idx, PageEvent.relTree hpage_idx])
      else
        let a := ascentLoop env vi max_ra_pages levelsLeft (level + 1) next_hidx s1
          (⟨hpage_idx, haddr, hblock_idx, hoffsetStep vi hidx⟩ :: held)
        (a.1, a.2.1, a.2.2.1, PageEvent.acqTree hpage_idx :: a.2.2.2)

/-- Descent loop of verify_data_block (verify.c lines 226-249), together
with the error unwind (lines 263-267): verify the held hash blocks from
the highest level down, marking each verified block, extracting the next
target digest, and releasing the page.  Returns none on a hash failure or
digest mismatch (all still-held pages released), else the final target
digest for the data block. -/
def descentLoop (vi : FsverityInfo) :
    Bytes → MemoState → List HBlockView →
    Option Bytes × MemoState × List PageEvent
  | want, s, [] => (some want, s, [])
  | want, s, v :: rest =>
    match vi.tree_params.hashOf v.blockBytes with
    | none => (none, s, (v :: rest).map (fun w => PageEvent.relTree w.pageIdx))
    | some real_hash =>
      if real_hash.take vi.tree_params.digest_size = want.take vi.tree_params.digest_size then
        let s1 := mark_hash_block_verified vi s v.pageIdx v.index
        let want_next := (v.blockBytes.drop v.hoffset).take vi.tree_params.digest_size
        let d := descentLoop vi want_next s1 rest
        (d.1, d.2.1, PageEvent.relTree v.pageIdx :: d.2.2)
      else
        (none, s, (v :: rest).map (fun w => PageEvent.relTree w.pageIdx))

/-- Mirror of verify_data_block (verify.c lines 112-269).  Returns the
verdict, the updated memoization state, and the trace of page events. -/
def verify_data_block (env : VerityEnv) (inode : Inode) (vi : FsverityInfo)
    (dblock : PendingBlock) (max_ra_pages : Nat) (s : MemoState) :
    Bool × MemoState × List PageEvent :=
  let params := vi.tree_params
  let hsize := params.digest_size
  if inode.i_size ≤ dblock.pos then
    if (dblock.data.take params.block_size).any (fun b => b != 0) then
      (false, s, [])
    else
      (true, s, [])
  else
    let hidx := dblock.pos >>> params.log_blocksize
    let a := ascentLoop env vi max_ra_pages params.num_levels 0 hidx s []
    match a.1 with
    | none =>
      (false, a.2.1, a.2.2.2 ++ a.2.2.1.map (fun w => PageEvent.relTree w.pageIdx))
    | some want =>
      let d := descentLoop vi want a.2.1 a.2.2.1
      match d.1 with
      | none => (false, d.2.1, a.2.2.2 ++ d.2.2)
      | some final_want =>
        if dblock.real_hash.take hsize = final_want.take hsize then
          (true, d.2.1, a.2.2.2 ++ d.2.2)
        else
          (false, d.2.1, a.2.2.2 ++ d.2.2)

/-- Mirror of struct fsverity_verification_context.  num_pending is the
length of pending_blocks. -/
structure VerificationContext where
  inode : Inode
  vi : FsverityInfo
  max_ra_pages : Nat
  pending_blocks : List PendingBlock

/-- Builds a verification context from its four fields; abbreviation used
in proofs. -/
def mkCtx (inode : Inode) (vi : FsverityInfo) (mra : Nat)
    (ps : List PendingBlock) : VerificationContext :=
  { inode := inode, vi := vi, max_ra_pages := mra, pending_blocks := ps }

/-- Mirror of fsverity_init_verification_context (verify.c lines
271-280). -/
def fsverity_init_verification_context (inode : Inode) (max_ra_pages : Nat) :
    VerificationContext :=
  { inode := inode, vi := inode.i_verity_info, max_ra_pages := max_ra_pages,
    pending_blocks := [] }

/-- Mirror of fsverity_clear_pending_blocks (verify.c lines 282-292):
unmap the pending data views in reverse order and reset num_pending. -/
def fsverity_clear_pending_blocks (ctx : VerificationContext) :
    VerificationContext × List PageEvent :=
  ({ ctx with pending_blocks := [] },
    ctx.pending_blocks.reverse.map (fun b => PageEvent.relData b.pos))

/-- Writing the multi-buffer hash outputs into the real_hash slots of the
pending queue (verify.c line 311 wiring real_hashes[i] into
pending_blocks[i].real_hash). -/
def setRealHashes (ps : List PendingBlock) (hs : List Bytes) : List PendingBlock :=
  List.zipWith (fun (b : PendingBlock) h => { b with real_hash := h }) ps hs

/-- Semantics of crypto_shash_finup_mb given the per-block hash function:
hash every buffer, failing wholesale when any single hash fails, exactly
as n independent single-message finalizations (spec section 4.1). -/
def finupMB (hashOf : HashFn) : List Bytes → Option (List Bytes)
  | [] => some []
  | d :: rest =>
    match hashOf d with
    | none => none
    | some h =>
      match finupMB hashOf rest with
      | none => none
      | some hs => some (h :: hs)

/-- Verification loop of fsverity_verify_pending_blocks (verify.c lines
330-334): walk each pending entry in order, stopping at the first
failure. -/
def verifyPendingLoop (env : VerityEnv) (inode : Inode) (vi : FsverityInfo)
    (max_ra_pages : Nat) :
    List PendingBlock → MemoState → Bool × MemoState × List PageEvent
  | [], s => (true, s, [])
  | b :: rest, s =>
    match verify_data_block env inode vi b max_ra_pages s with
    | (true, s1, tr) =>
      match verifyPendingLoop env inode vi max_ra_pages rest s1 with
      | (r, s2, tr2) => (r, s2, tr ++ tr2)
    | (false, s1, tr) => (false, s1, tr)

/-- Mirror of fsverity_verify_pending_blocks (verify.c lines 294-338).
Returns the verdict, the updated context, the updated memoization state,
and the trace of page events. -/
def fsverity_verify_pending_blocks (env : VerityEnv)
    (ctx : VerificationContext) (s : MemoState) :
    Bool × VerificationContext × MemoState × List PageEvent :=
  let params := ctx.vi.tree_params
  if ctx.pending_blocks = [] then
    (true, ctx, s, [])
  else if env.importOk = false then
    (false, ctx, s, [])
  else
    match finupMB params.hashOf (ctx.pending_blocks.map (fun b => b.data)) with
    | none => (false, ctx, s, [])
    | some hashes =>
      let pending1 := setRealHashes ctx.pending_blocks hashes
      match verifyPendingLoop env ctx.inode ctx.vi ctx.max_ra_pages pending1 s with
      | (false, s1, tr) => (false, { ctx with pending_blocks := pending1 }, s1, tr)
      | (true, s1, tr) =>
        match fsverity_clear_pending_blocks { ctx with pending_blocks := pending1 } with
        | (ctx2, tr2) => (true, ctx2, s1, tr ++ tr2)

/-- Mirror of a pagecache folio as used by verify.c: its page-cache index,
its bytes, and its locked / uptodate flags. -/
structure Folio where
  index : Nat
  bytes : Bytes
  locked : Bool
  uptodate : Bool
deriving DecidableEq

/-- File position of the data block at offset within the folio (verify.c
lines 348 and 358); the page size is block_size times blocks_per_page. -/
def dataPos (vi : FsverityInfo) (folio : Folio) (offset : Nat) : Nat :=
  folio.index * (vi.tree_params.block_size * vi.tree_params.blocks_per_page) + offset

/-- Mapped view of the data block at offset within the folio (verify.c
line 357: kmap_local_folio(data_folio, offset), read for block_size
bytes). -/
def dataView (vi : FsverityInfo) (folio : Folio) (offset : Nat) : Bytes :=
  (folio.bytes.drop offset).take vi.tree_params.block_size

/-- Pending entry queued for the data block at offset within the folio
(verify.c lines 356-358); real_hash is filled later by the flush. -/
def newPending (vi : FsverityInfo) (folio : Folio) (offset : Nat) : PendingBlock :=
  ⟨dataView vi folio offset, dataPos vi folio offset, []⟩

/-- Do-while body of fsverity_add_data_blocks (verify.c lines 355-364),
iterated once per data block of the range.  Each iteration maps one block
view, queues it, and flushes when the queue reaches mb_max_msgs. -/
def addBlocksLoop (env : VerityEnv) :
    Nat → VerificationContext → MemoState → Folio → Nat →
    Bool × VerificationContext × MemoState × List PageEvent
  | 0, ctx, s, _folio, _offset => (true, ctx, s, [])
  | count + 1, ctx, s, folio, offset =>
    let ctx1 : VerificationContext :=
      { ctx with pending_blocks := ctx.pending_blocks ++ [newPending ctx.vi folio offset] }
    if ctx1.pending_blocks.length = ctx.vi.tree_params.mb_max_msgs then
      let f := fsverity_verify_pending_blocks env ctx1 s
      if f.1 then
        let a := addBlocksLoop env count f.2.1 f.2.2.1 folio
          (offset + ctx.vi.tree_params.block_size)
        (a.1, a.2.1, a.2.2.1,
          PageEvent.acqData (dataPos ctx.vi folio offset) :: (f.2.2.2 ++ a.2.2.2))
      else
        (false, f.2.1, f.2.2.1, PageEvent.acqData (dataPos ctx.vi folio offset) :: f.2.2.2)
    else
      let a := addBlocksLoop env count ctx1 s folio (offset + ctx.vi.tree_params.block_size)
      (a.1, a.2.1, a.2.2.1, PageEvent.acqData (dataPos ctx.vi folio offset) :: a.2.2.2)

/-- Mirror of fsverity_add_data_blocks (verify.c lines 340-366).  The
length and offset guards reject a zero length or a misalignment; the folio
must be locked and not yet uptodate.  len / block_size counts the
iterations of the do-while loop. -/
def fsverity_add_data_blocks (env : VerityEnv) (ctx : VerificationContext)
    (s : MemoState) (data_folio : Folio) (len offset : Nat) :
    Bool × VerificationContext × MemoState × List PageEvent :=
  let params := ctx.vi.tree_params
  let block_size := params.block_size
  if len = 0 ∨ ((len ||| offset) &&& (block_size - 1)) ≠ 0 then
    (false, ctx, s, [])
  else if data_folio.locked = false ∨ data_folio.uptodate = true then
    (false, ctx, s, [])
  else
    addBlocksLoop env (len / block_size) ctx s data_folio offset

/-- Mirror of fsverity_verify_blocks (verify.c lines 380-392).  The inode
argument models folio->mapping->host.  Returns the verdict, the updated
memoization state, and the trace of page events. -/
def fsverity_verify_blocks (env : VerityEnv) (folio : Folio) (inode : Inode)
    (len offset : Nat) (s : MemoState) :
    Bool × MemoState × List PageEvent :=
  let ctx := fsverity_init_verification_context inode 0
  match fsverity_add_data_blocks env ctx s folio len offset with
  | (true, ctx1, s1, tr1) =>
    match fsverity_verify_pending_blocks env ctx1 s1 with
    | (true, _ctx2, s2, tr2) => (true, s2, tr1 ++ tr2)
    | (false, ctx2, s2, tr2) =>
      match fsverity_clear_pending_blocks ctx2 with
      | (_ctx3, tr3) => (false, s2, tr1 ++ (tr2 ++ tr3))
  | (false, ctx1, s1, tr1) =>
    match fsverity_clear_pending_blocks ctx1 with
    | (_ctx3, tr3) => (false, s1, tr1 ++ tr3)

/-- Mirror of one folio segment of a bio (struct folio_iter fields used by
fsverity_verify_bio). -/
structure BioSegment where
  folio : Folio
  length : Nat
  offset : Nat
deriving DecidableEq

/-- Mirror of the bio fields used by fsverity_verify_bio: the folio
segments, the status, the REQ_RAHEAD bit of bi_opf, and bi_iter.bi_size. -/
structure Bio where
  segments : List BioSegment
  bi_status : Nat
  bi_opf_rahead : Bool
  bi_size : Nat
deriving DecidableEq

/-- Numeric value of BLK_STS_IOERR from the block layer headers. -/
def BLK_STS_IOERR : Nat := 10

/-- Segment loop of fsverity_verify_bio (verify.c lines 431-435). -/
def bioAddLoop (env : VerityEnv) :
    List BioSegment → VerificationContext → MemoState →
    Bool × VerificationContext × MemoState × List PageEvent
  | [], ctx, s => (true, ctx, s, [])
  | seg :: rest, ctx, s =>
    match fsverity_add_data_blocks env ctx s seg.folio seg.length seg.offset with
    | (true, ctx1, s1, tr1) =>
      match bioAddLoop env rest ctx1 s1 with
      | (r, ctx2, s2, tr2) => (r, ctx2, s2, tr1 ++ tr2)
    | (false, ctx1, s1, tr1) => (false, ctx1, s1, tr1)

/-- Readahead budget of fsverity_verify_bio (verify.c lines 416-427): for
a readahead bio, one quarter of the data page count, else zero.  The
page shift is log_blocksize + log_blocks_per_page. -/
def bioMaxRa (inode : Inode) (bio : Bio) : Nat :=
  let params := inode.i_verity_info.tree_params
  let page_shift := params.log_blocksize + params.log_blocks_per_page
  if bio.bi_opf_rahead then bio.bi_size >>> (page_shift + 2) else 0

/-- Mirror of fsverity_verify_bio (verify.c lines 409-445).  The inode
argument models bio_first_folio_all(bio)->mapping->host.  The Boolean
result records whether the success return (line 439) was reached; the
returned bio carries the status update of the ioerr path. -/
def fsverity_verify_bio (env : VerityEnv) (inode : Inode) (bio : Bio)
    (s : MemoState) : Bool × Bio × MemoState × List PageEvent :=
  let ctx := fsverity_init_verification_context inode (bioMaxRa inode bio)
  match bioAddLoop env bio.segments ctx s with
  | (true, ctx1, s1, tr1) =>
    match fsverity_verify_pending_blocks env ctx1 s1 with
    | (true, _ctx2, s2, tr2) => (true, bio, s2, tr1 ++ tr2)
    | (false, ctx2, s2, tr2) =>
      match fsverity_clear_pending_blocks ctx2 with
      | (_ctx3, tr3) =>
        (false, { bio with bi_status := BLK_STS_IOERR }, s2, tr1 ++ (tr2 ++ tr3))
  | (false, ctx1, s1, tr1) =>
    match fsverity_clear_pending_blocks ctx1 with
    | (_ctx3, tr3) =>
      (false, { bio with bi_status := BLK_STS_IOERR }, s1, tr1 ++ tr3)

/-! Specification-side definitions: the hash-path arithmetic of a data
block position, the digest chain a Merkle tree roots, and the invariant
relating the memoization state to the tree.  These follow the formulas of
spec section 4.4, which verify.c implements. -/

/-- Index, within level l, of the path block of the data block at file
position pos; for l = 0 this is the data block number itself. -/
def hidxAt (vi : FsVerity.FsverityInfo) (pos l : Nat) : Nat :=
  (pos >>> vi.tree_params.log_blocksize) >>> (l * vi.tree_params.log_arity)

/-- Overall tree index of the level-l hash block on the path of pos. -/
def hblockIdxAt (vi : FsVerity.FsverityInfo) (pos l : Nat) : Nat :=
  vi.tree_params.level_start.getD l 0 + hidxAt vi pos (l + 1)

/-- Tree page index of the level-l hash block on the path of pos. -/
def hpageIdxAt (vi : FsVerity.FsverityInfo) (pos l : Nat) : Nat :=
  hblockIdxAt vi pos l >>> vi.tree_params.log_blocks_per_page

/-- Byte offset, within its block, of the wanted child digest in the
level-l hash block on the path of pos. -/
def hoffsetAt (vi : FsVerity.FsverityInfo) (pos l : Nat) : Nat :=
  (hidxAt vi pos l <<< vi.tree_params.log_digestsize) &&&
    (vi.tree_params.block_size - 1)

/-- Contents of the level-l hash block on the path of pos, as stored in
the tree pages. -/
def hblockBytesAt (pages : Nat → FsVerity.Bytes) (vi : FsVerity.FsverityInfo)
    (pos l : Nat) : FsVerity.Bytes :=
  let params := vi.tree_params
  let page_size := params.block_size * params.blocks_per_page
  let off := (hblockIdxAt vi pos l <<< params.log_blocksize) % page_size
  ((pages (hpageIdxAt vi pos l)).drop off).take params.block_size

/-- Target digest entering level l of the path of pos from above: the root
digest at (or beyond) the top level, else the child digest stored in the
level-l hash block. -/
def targetAt (pages : Nat → FsVerity.Bytes) (vi : FsVerity.FsverityInfo)
    (pos l : Nat) : FsVerity.Bytes :=
  if vi.tree_params.num_levels ≤ l then vi.root_hash
  else ((hblockBytesAt pages vi pos l).drop (hoffsetAt vi pos l)).take
    vi.tree_params.digest_size

/-- The level-l hash block on the path of pos hashes to the digest its
parent (or the root) stores for it. -/
def hashMatchesAt (pages : Nat → FsVerity.Bytes) (vi : FsVerity.FsverityInfo)
    (pos l : Nat) : Prop :=
  ∃ d, vi.tree_params.hashOf (hblockBytesAt pages vi pos l) = some d ∧
    d.take vi.tree_params.digest_size =
      (targetAt pages vi pos (l + 1)).take vi.tree_params.digest_size

/-- All path hash blocks of pos from level l up to the root are consistent
with the digests stored above them. -/
def chainOkAbove (pages : Nat → FsVerity.Bytes) (vi : FsVerity.FsverityInfo)
    (pos l : Nat) : Prop :=
  ∀ l', l ≤ l' → l' < vi.tree_params.num_levels → hashMatchesAt pages vi pos l'

/-- The tree with pages pages and the root digest of vi authenticates body
at file position pos: the whole hash path of pos is consistent from the
root down, and the leaf digest for pos is the hash of body. -/
def treeAuthenticates (pages : Nat → FsVerity.Bytes) (vi : FsVerity.FsverityInfo)
    (pos : Nat) (body : FsVerity.Bytes) : Prop :=
  chainOkAbove pages vi pos 0 ∧
  ∃ h, vi.tree_params.hashOf body = some h ∧
    h.take vi.tree_params.digest_size =
      (targetAt pages vi pos 0).take vi.tree_params.digest_size

/-- Whether a memoization query for block hblock on page hpage would
answer true in state s, without the state update of the query. -/
def memoHit (vi : FsVerity.FsverityInfo) (s : FsVerity.MemoState)
    (hpage hblock : Nat) : Bool :=
  if vi.hash_block_verified then s.pageChecked hpage && s.bitmap hblock
  else s.pageChecked hpage

/-- Soundness invariant of the memoization state: whenever a path hash
block of some position is recorded as verified, the whole chain from the
root down to it is consistent. -/
def memoSound (pages : Nat → FsVerity.Bytes) (vi : FsVerity.FsverityInfo)
    (s : FsVerity.MemoState) : Prop :=
  ∀ pos l, l < vi.tree_params.num_levels →
    memoHit vi s (hpageIdxAt vi pos l) (hblockIdxAt vi pos l) = true →
    chainOkAbove pages vi pos l

/-- Memoization state with every page flag clear and every bitmap bit
clear: the state of a freshly instantiated page cache. -/
def memoFresh : FsVerity.MemoState :=
  { pageChecked := fun _ => false, bitmap := fun _ => false }

/-- Views still held by the ascent after levels 0 to m - 1 were collected
without a memoization hit, highest level first. -/
def viewsDown (pages : Nat → FsVerity.Bytes) (vi : FsVerity.FsverityInfo)
    (pos : Nat) : Nat → List FsVerity.HBlockView
  | 0 => []
  | m + 1 =>
    ⟨hpageIdxAt vi pos m, hblockBytesAt pages vi pos m, hblockIdxAt vi pos m,
      hoffsetAt vi pos m⟩ :: viewsDown pages vi pos m

/-- Upper bound on the pending-block queue, from FS_VERITY_MAX_PENDING_DATA_BLOCKS.
Modelled from the spec: fsverity_private.h is not among the provided
sources; spec section 4.5 says MB_MAX is a small constant, typically 2-4.
The value is not load-bearing for any theorem below. -/
def FS_VERITY_MAX_PENDING_DATA_BLOCKS : Nat := 2

/-- Verification of a list of data blocks by separate single-block
verifications in FIFO order: each block goes through its own
fsverity_verify_pending_blocks call with a one-entry queue, stopping at
the first failure. -/
def verifySequentially (env : FsVerity.VerityEnv) (inode : FsVerity.Inode)
    (vi : FsVerity.FsverityInfo) (max_ra_pages : Nat) :
    List FsVerity.PendingBlock → FsVerity.MemoState → Bool × FsVerity.MemoState
  | [], s => (true, s)
  | b :: rest, s =>
    match FsVerity.fsverity_verify_pending_blocks env
        { inode := inode, vi := vi, max_ra_pages := max_ra_pages,
          pending_blocks := [b] } s with
    | (true, _, s1, _) => verifySequentially env inode vi max_ra_pages rest s1
    | (false, _, s1, _) => (false, s1)

/-! Concrete instances used by witnesses and counterexamples: a two-block
file over a one-level Merkle tree with two tree blocks per page, the shape
of spec scenarios S1 and S2 scaled down to block_size 2 and digest_size
1. -/

/-- Toy block hash used by the concrete instances: a total polynomial
accumulator truncated to one byte. -/
def toyHash : HashFn := fun l => some [(l.foldl (fun a b => a * 31 + b) 7) % 251]

/-- Tree parameters of the concrete instances: block_size 2, digest_size
1, arity 2, one level, two tree blocks per page. -/
def params2 : MerkleTreeParams :=
  { block_size := 2, log_blocksize := 1, digest_size := 1, log_digestsize := 0,
    log_arity := 1, num_levels := 1, level_start := [0], tree_pages := 1,
    blocks_per_page := 2, log_blocks_per_page := 1, mb_max_msgs := 2,
    hashOf := toyHash }

/-- Descriptor of the concrete instances, in bitmap mode.  The root is
toyHash of the leaf hash block [22, 54]. -/
def vi2 : FsverityInfo :=
  { tree_params := params2, root_hash := [184], hash_block_verified := true }

/-- Inode of the concrete instances: a two-data-block file. -/
def inode2 : Inode := { i_size := 4, i_verity_info := vi2 }

/-- Tree pages of the concrete instances: one page holding the leaf hash
block [22, 54] = [toyHash [65, 65], toyHash [66, 66]] and padding. -/
def pages2 : Nat → Bytes := fun i => if i = 0 then [22, 54, 0, 0] else []

/-- Valid data block 0 of the concrete instances, with its real hash as
the batching layer computes it. -/
def dblockOk : PendingBlock := { data := [65, 65], pos := 0, real_hash := [22] }

/-- Corrupted data block 1 of scenario S2 scaled down: one byte flipped
after the tree was built, with its real hash as the batching layer
computes it. -/
def dblockBad : PendingBlock := { data := [66, 67], pos := 2, real_hash := [55] }

/-- C2: past-EOF contract of verify_data_block: a data block at or past
i_size is accepted exactly when its block_size-byte body is identically
zero, the memoization state is untouched and no tree page is consulted. -/
theorem claim_C2 (env : VerityEnv) (inode : Inode) (vi : FsverityInfo)
    (dblock : PendingBlock) (mra : Nat) (s : MemoState)
    (h : inode.i_size ≤ dblock.pos) :
    ((verify_data_block env inode vi dblock mra s).1 = true ↔
      (dblock.data.take vi.tree_params.block_size).all (fun b => b == 0) = true) ∧
    (verify_data_block env inode vi dblock mra s).2.1 = s ∧
    (verify_data_block env inode vi dblock mra s).2.2 = [] := by
  unfold verify_data_block
  rw [if_pos h]
  by_cases hz :
      (dblock.data.take vi.tree_params.block_size).any (fun b => b != 0) = true
  · rw [if_pos hz]
    refine ⟨?_, rfl, rfl⟩
    simp only [List.any_eq_true, bne_iff_ne] at hz
    obtain ⟨x, hx, hxne⟩ := hz
    constructor
    · intro hco
      exact absurd hco (by simp)
    · intro hall
      simp only [List.all_eq_true, beq_iff_eq] at hall
      exact absurd (hall x hx) hxne
  · rw [if_neg hz]
    refine ⟨?_, rfl, rfl⟩
    simp only [List.any_eq_true, bne_iff_ne, not_exists, not_and, not_not] at hz
    constructor
    · intro _
      simp only [List.all_eq_true, beq_iff_eq]
      intro x hx
      exact hz x hx
    · intro _
      rfl

/-- C2 witness: a block of zeroes at position 4 of the two-block file is
past EOF and accepted. -/
theorem claim_C2_witness :
    ((verify_data_block (envOfTree pages2) inode2 vi2 ⟨[0, 0], 4, []⟩ 0 memoFresh).1 = true ↔
      (([0, 0] : Bytes).take vi2.tree_params.block_size).all (fun b => b == 0) = true) ∧
    (verify_data_block (envOfTree pages2) inode2 vi2 ⟨[0, 0], 4, []⟩ 0 memoFresh).2.1 = memoFresh ∧
    (verify_data_block (envOfTree pages2) inode2 vi2 ⟨[0, 0], 4, []⟩ 0 memoFresh).2.2 = [] :=
  claim_C2 (envOfTree pages2) inode2 vi2 ⟨[0, 0], 4, []⟩ 0 memoFresh (by decide)

/-- C4 counterexample: with a consistent one-level tree (the leaf hash
block hashes to the root) and a data block whose body was altered so its
hash mismatches the leaf digest, verify_data_block fails, yet the
memoization bit of the leaf hash block (tree block 0) IS set afterwards:
the descent marks a hash block as soon as the hash block itself verifies,
before the data-block comparison. -/
theorem claim_C4_counterexample :
    vi2.tree_params.hashOf [22, 54] = some vi2.root_hash ∧
    vi2.tree_params.hashOf dblockBad.data = some dblockBad.real_hash ∧
    dblockBad.real_hash ≠ [54] ∧
    (verify_data_block (envOfTree pages2) inode2 vi2 dblockBad 0 memoFresh).1 = false ∧
    ((verify_data_block (envOfTree pages2) inode2 vi2 dblockBad 0 memoFresh).2.1).bitmap 0 = true :=
  ⟨rfl, rfl, by decide, rfl, rfl⟩

/-- C5 counterexample: in bitmap mode, marking a hash block verified sets
only the bitmap bit; the page flag, although clear, is NOT set by the
mark. -/
theorem claim_C5_counterexample :
    vi2.hash_block_verified = true ∧
    memoFresh.pageChecked 5 = false ∧
    (mark_hash_block_verified vi2 memoFresh 5 9).bitmap 9 = true ∧
    (mark_hash_block_verified vi2 memoFresh 5 9).pageChecked 5 = false :=
  ⟨rfl, rfl, rfl, rfl⟩

/-- C5 amended: in bitmap mode, marking sets the bitmap bit for the block
and leaves the page flags entirely unchanged (the page flag is managed by
the read path is_hash_block_verified, not by marking). -/
theorem claim_C5 (vi : FsverityInfo) (s : MemoState) (p b : Nat)
    (hbm : vi.hash_block_verified = true) :
    (mark_hash_block_verified vi s p b).bitmap b = true ∧
    (mark_hash_block_verified vi s p b).pageChecked = s.pageChecked := by
  unfold mark_hash_block_verified
  rw [hbm]
  simp

/-- C5 witness: the amended marking behaviour at concrete inputs. -/
theorem claim_C5_witness :
    (mark_hash_block_verified vi2 memoFresh 3 7).bitmap 7 = true ∧
    (mark_hash_block_verified vi2 memoFresh 3 7).pageChecked = memoFresh.pageChecked :=
  claim_C5 vi2 memoFresh 3 7 rfl

/-- C6: bitmap-mode read protocol of is_hash_block_verified.  With the
page flag set, a read barrier is issued and the bitmap bit is returned
with no state change.  With the flag clear, the bitmap bits of all blocks
residing on the page are cleared, a write barrier is issued, the page flag
is set, and false is returned. -/
theorem claim_C6 (vi : FsverityInfo) (s : MemoState) (p b : Nat)
    (hbm : vi.hash_block_verified = true) :
    (s.pageChecked p = true →
      is_hash_block_verified vi s p b = (s, s.bitmap b, [MemoEvent.rmb])) ∧
    (s.pageChecked p = false →
      (is_hash_block_verified vi s p b).2.1 = false ∧
      (is_hash_block_verified vi s p b).2.2 = [MemoEvent.wmb] ∧
      (is_hash_block_verified vi s p b).1.pageChecked p = true ∧
      (∀ j, j ≠ p →
        (is_hash_block_verified vi s p b).1.pageChecked j = s.pageChecked j) ∧
      (∀ j, round_down b vi.tree_params.blocks_per_page ≤ j →
        j < round_down b vi.tree_params.blocks_per_page + vi.tree_params.blocks_per_page →
        (is_hash_block_verified vi s p b).1.bitmap j = false) ∧
      (∀ j, j < round_down b vi.tree_params.blocks_per_page ∨
        round_down b vi.tree_params.blocks_per_page + vi.tree_params.blocks_per_page ≤ j →
        (is_hash_block_verified vi s p b).1.bitmap j = s.bitmap j)) := by
  unfold is_hash_block_verified
  rw [hbm]
  have hA : ¬(true = false) := by simp
  constructor
  · intro hp
    rw [if_neg hA, if_pos hp]
  · intro hp
    rw [if_neg hA, if_neg (by simp [hp])]
    refine ⟨rfl, rfl, by simp, ?_, ?_, ?_⟩
    · intro j hj
      simp [hj]
    · intro j h1 h2
      simp only []
      split
      · rfl
      · next hcond => exact absurd ⟨h1, h2⟩ hcond
    · intro j hj
      simp only []
      split
      · next hcond => omega
      · rfl

/-- C6 witness: a query on a freshly instantiated page answers false and
issues the write barrier. -/
theorem claim_C6_witness :
    (is_hash_block_verified vi2 memoFresh 0 1).2.1 = false ∧
    (is_hash_block_verified vi2 memoFresh 0 1).2.2 = [MemoEvent.wmb] := by
  have h := claim_C6 vi2 memoFresh 0 1 rfl
  exact ⟨(h.2 rfl).1, (h.2 rfl).2.1⟩

/-- C9: a zero-length range is rejected by fsverity_add_data_blocks and
hence by fsverity_verify_blocks, even though a zero-length range is
trivially block-aligned. -/
theorem claim_C9 :
    (∀ (env : VerityEnv) (ctx : VerificationContext) (s : MemoState)
      (folio : Folio) (offset : Nat),
      (fsverity_add_data_blocks env ctx s folio 0 offset).1 = false) ∧
    (∀ (env : VerityEnv) (folio : Folio) (inode : Inode) (offset : Nat)
      (s : MemoState),
      (fsverity_verify_blocks env folio inode 0 offset s).1 = false) := by
  constructor
  · intro env ctx s folio offset
    rfl
  · intro env folio inode offset s
    rfl

/-- C10: fsverity_verify_bio leaves the bio entirely unchanged when every
segment is added and the flush succeeds, and on failure changes exactly
bi_status, to BLK_STS_IOERR. -/
theorem claim_C10 (env : VerityEnv) (inode : Inode) (bio : Bio) (s : MemoState) :
    ((fsverity_verify_bio env inode bio s).1 = true →
      (fsverity_verify_bio env inode bio s).2.1 = bio) ∧
    ((fsverity_verify_bio env inode bio s).1 = false →
      (fsverity_verify_bio env inode bio s).2.1 = { bio with bi_status := BLK_STS_IOERR }) := by
  rcases hadd : bioAddLoop env bio.segments
      (fsverity_init_verification_context inode (bioMaxRa inode bio)) s with
    ⟨b1, c1, s1, t1⟩
  cases b1
  · simp [fsverity_verify_bio, hadd]
  · rcases hfl : fsverity_verify_pending_blocks env c1 s1 with ⟨b2, c2, s2, t2⟩
    cases b2
    · simp [fsverity_verify_bio, hadd, hfl]
    · simp [fsverity_verify_bio, hadd, hfl]

/-- C10 witness: a bio with no segments verifies successfully and is
returned unchanged. -/
theorem claim_C10_witness :
    (fsverity_verify_bio (envOfTree pages2) inode2 ⟨[], 0, false, 0⟩ memoFresh).2.1 =
      (⟨[], 0, false, 0⟩ : Bio) :=
  (claim_C10 (envOfTree pages2) inode2 ⟨[], 0, false, 0⟩ memoFresh).1 rfl

/-- Multi-buffer hashing produces one output per input. -/
theorem finupMB_length (f : HashFn) :
    ∀ ds hs, finupMB f ds = some hs → hs.length = ds.length := by
  intro ds
  induction ds with
  | nil =>
    intro hs h
    simp only [finupMB, Option.some.injEq] at h
    subst h
    rfl
  | cons d rest ih =>
    intro hs h
    simp only [finupMB] at h
    rcases hfd : f d with _ | hd
    · rw [hfd] at h
      simp at h
    · rw [hfd] at h
      rcases hrest : finupMB f rest with _ | hs'
      · rw [hrest] at h
        simp at h
      · rw [hrest] at h
        simp only [Option.some.injEq] at h
        subst h
        simp [ih hs' hrest]

/-- Writing the real_hash slots of a pending queue does not change the
recorded file positions. -/
theorem map_pos_setRealHashes (ps : List PendingBlock) (hs : List Bytes)
    (h : ps.length = hs.length) :
    (setRealHashes ps hs).map (fun b => b.pos) = ps.map (fun b => b.pos) := by
  induction ps generalizing hs with
  | nil => simp [setRealHashes]
  | cons b rest ih =>
    cases hs with
    | nil => simp at h
    | cons hh ht =>
      simp only [setRealHashes, List.zipWith_cons_cons, List.map_cons, List.cons.injEq]
      refine ⟨trivial, ?_⟩
      have := ih ht (by simpa using h)
      simpa [setRealHashes] using this

/-- C7: flush postcondition and error atomicity of
fsverity_verify_pending_blocks: an empty queue is a no-op returning ok; on
any error the verdict is err and the pending queue keeps its entries (same
positions, so the mappings remain for teardown); on success the queue is
emptied, every pending view is released, and the memoization state is that
of walking each pending entry, with real_hash filled by the one
multi-buffer hash, in FIFO order. -/
theorem claim_C7 (env : VerityEnv) (ctx : VerificationContext) (s : MemoState) :
    (ctx.pending_blocks = [] →
      fsverity_verify_pending_blocks env ctx s = (true, ctx, s, [])) ∧
    ((fsverity_verify_pending_blocks env ctx s).1 = false →
      (fsverity_verify_pending_blocks env ctx s).2.1.pending_blocks.map (fun b => b.pos) =
        ctx.pending_blocks.map (fun b => b.pos)) ∧
    ((fsverity_verify_pending_blocks env ctx s).1 = true →
      (fsverity_verify_pending_blocks env ctx s).2.1.pending_blocks = [] ∧
      ∀ b ∈ ctx.pending_blocks,
        PageEvent.relData b.pos ∈ (fsverity_verify_pending_blocks env ctx s).2.2.2) ∧
    ((fsverity_verify_pending_blocks env ctx s).1 = true → ctx.pending_blocks ≠ [] →
      ∃ hs, finupMB ctx.vi.tree_params.hashOf
          (ctx.pending_blocks.map (fun b => b.data)) = some hs ∧
        (fsverity_verify_pending_blocks env ctx s).2.2.1 =
          (verifyPendingLoop env ctx.inode ctx.vi ctx.max_ra_pages
            (setRealHashes ctx.pending_blocks hs) s).2.1) := by
  by_cases hemp : ctx.pending_blocks = []
  · have hres : fsverity_verify_pending_blocks env ctx s = (true, ctx, s, []) := by
      simp [fsverity_verify_pending_blocks, hemp]
    refine ⟨fun _ => hres, ?_, ?_, ?_⟩
    · intro hf
      rw [hres] at hf
      simp at hf
    · intro _
      rw [hres, hemp]
      exact ⟨rfl, by simp⟩
    · intro _ hne
      exact absurd hemp hne
  · by_cases himp : env.importOk = false
    · have hres : fsverity_verify_pending_blocks env ctx s = (false, ctx, s, []) := by
        simp [fsverity_verify_pending_blocks, hemp, himp]
      refine ⟨fun he => absurd he hemp, ?_, ?_, ?_⟩
      · intro _
        rw [hres]
      · intro ht
        rw [hres] at ht
        simp at ht
      · intro ht
        rw [hres] at ht
        simp at ht
    · rcases hmb : finupMB ctx.vi.tree_params.hashOf
          (ctx.pending_blocks.map (fun b => b.data)) with _ | hs
      · have hres : fsverity_verify_pending_blocks env ctx s = (false, ctx, s, []) := by
          simp [fsverity_verify_pending_blocks, hemp, himp, hmb]
        refine ⟨fun he => absurd he hemp, ?_, ?_, ?_⟩
        · intro _
          rw [hres]
        · intro ht
          rw [hres] at ht
          simp at ht
        · intro ht
          rw [hres] at ht
          simp at ht
      · have hlen : ctx.pending_blocks.length = hs.length := by
          have := finupMB_length ctx.vi.tree_params.hashOf _ _ hmb
          simpa using this.symm
        rcases hloop : verifyPendingLoop env ctx.inode ctx.vi ctx.max_ra_pages
            (setRealHashes ctx.pending_blocks hs) s with ⟨bl, sl, tl⟩
        cases bl
        · have hres : fsverity_verify_pending_blocks env ctx s =
              (false,
                { ctx with pending_blocks :=
                    setRealHashes ctx.pending_blocks hs },
                sl, tl) := by
            simp [fsverity_verify_pending_blocks, hemp, himp, hmb, hloop]
          refine ⟨fun he => absurd he hemp, ?_, ?_, ?_⟩
          · intro _
            rw [hres]
            exact map_pos_setRealHashes _ _ hlen
          · intro ht
            rw [hres] at ht
            simp at ht
          · intro ht
            rw [hres] at ht
            simp at ht
        · have hres : fsverity_verify_pending_blocks env ctx s =
              (true, { ctx with pending_blocks := ([] : List PendingBlock) }, sl,
                tl ++ (setRealHashes ctx.pending_blocks hs).reverse.map (fun b => PageEvent.relData b.pos)) := by
            simp [fsverity_verify_pending_blocks, fsverity_clear_pending_blocks,
              hemp, himp, hmb, hloop]
          refine ⟨fun he => absurd he hemp, ?_, ?_, ?_⟩
          · intro hf
            rw [hres] at hf
            simp at hf
          · intro _
            rw [hres]
            refine ⟨rfl, ?_⟩
            intro b hb
            have hpos : b.pos ∈
                (setRealHashes ctx.pending_blocks hs).map (fun b => b.pos) := by
              rw [map_pos_setRealHashes _ _ hlen]
              exact List.mem_map.mpr ⟨b, hb, rfl⟩
            obtain ⟨b', hb', hbeq⟩ := List.mem_map.mp hpos
            apply List.mem_append.mpr
            right
            exact List.mem_map.mpr ⟨b', List.mem_reverse.mpr hb', by rw [hbeq]⟩
          · intro _ _
            refine ⟨hs, hmb, ?_⟩
            rw [hres, hloop]

/-- C7 witness: flush of an empty queue is a no-op returning ok. -/
theorem claim_C7_witness :
    fsverity_verify_pending_blocks (envOfTree pages2)
        (fsverity_init_verification_context inode2 0) memoFresh =
      (true, fsverity_init_verification_context inode2 0, memoFresh, []) :=
  (claim_C7 (envOfTree pages2) (fsverity_init_verification_context inode2 0) memoFresh).1 rfl

/-- Multi-buffer hashing succeeds when every single-buffer hash does. -/
theorem finupMB_total (f : HashFn) :
    ∀ ds, (∀ d ∈ ds, (f d).isSome = true) → ∃ hs, finupMB f ds = some hs := by
  intro ds
  induction ds with
  | nil =>
    intro _
    exact ⟨[], rfl⟩
  | cons d rest ih =>
    intro h
    obtain ⟨hd, hfd⟩ := Option.isSome_iff_exists.mp (h d (List.mem_cons_self d rest))
    obtain ⟨hs', hrest⟩ := ih (fun x hx => h x (List.mem_cons_of_mem d hx))
    exact ⟨hd :: hs', by simp [finupMB, hfd, hrest]⟩

/-- Walking a hash-filled queue in order is step-for-step the same
computation as a chain of single-block flushes: same verdict, same final
memoization state. -/
theorem loop_eq_seq (env : VerityEnv) (inode : Inode) (vi : FsverityInfo)
    (mra : Nat) (himp : env.importOk = true) :
    ∀ (blocks : List PendingBlock) (hs : List Bytes) (s : MemoState),
      finupMB vi.tree_params.hashOf (blocks.map (fun b => b.data)) = some hs →
      (verifyPendingLoop env inode vi mra (setRealHashes blocks hs) s).1 =
        (verifySequentially env inode vi mra blocks s).1 ∧
      (verifyPendingLoop env inode vi mra (setRealHashes blocks hs) s).2.1 =
        (verifySequentially env inode vi mra blocks s).2 := by
  intro blocks
  induction blocks with
  | nil =>
    intro hs s h
    simp only [List.map_nil, finupMB, Option.some.injEq] at h
    subst h
    simp [verifyPendingLoop, verifySequentially, setRealHashes]
  | cons b rest ih =>
    intro hs s h
    simp only [List.map_cons, finupMB] at h
    rcases hfd : vi.tree_params.hashOf b.data with _ | hb
    · rw [hfd] at h
      simp at h
    · rw [hfd] at h
      rcases hrest : finupMB vi.tree_params.hashOf (rest.map (fun b => b.data)) with _ | hs'
      · rw [hrest] at h
        simp at h
      · rw [hrest] at h
        simp only [Option.some.injEq] at h
        subst h
        have hsingle : fsverity_verify_pending_blocks env
            { inode := inode, vi := vi, max_ra_pages := mra, pending_blocks := [b] } s =
            (match verify_data_block env inode vi { b with real_hash := hb } mra s with
              | (true, s1, tr) =>
                (true, mkCtx inode vi mra [], s1, (tr ++ []) ++ [PageEvent.relData b.pos])
              | (false, s1, tr) =>
                (false, mkCtx inode vi mra [{ b with real_hash := hb }], s1, tr)) := by
          simp [fsverity_verify_pending_blocks, finupMB, hfd, setRealHashes,
            verifyPendingLoop, fsverity_clear_pending_blocks, mkCtx, himp]
          rcases verify_data_block env inode vi { b with real_hash := hb } mra s with
            ⟨bv, sv, tv⟩
          cases bv <;> simp
        rcases hwalk : verify_data_block env inode vi { b with real_hash := hb } mra s with
          ⟨bv, sv, tv⟩
        cases bv
        · rw [hwalk] at hsingle
          constructor
          · show (verifyPendingLoop env inode vi mra
                (setRealHashes (b :: rest) (hb :: hs')) s).1 = _
            simp only [setRealHashes, List.zipWith_cons_cons, verifyPendingLoop, hwalk,
              verifySequentially, hsingle]
          · show (verifyPendingLoop env inode vi mra
                (setRealHashes (b :: rest) (hb :: hs')) s).2.1 = _
            simp only [setRealHashes, List.zipWith_cons_cons, verifyPendingLoop, hwalk,
              verifySequentially, hsingle]
        · rw [hwalk] at hsingle
          have hih := ih hs' sv hrest
          constructor
          · show (verifyPendingLoop env inode vi mra
                (setRealHashes (b :: rest) (hb :: hs')) s).1 = _
            simp only [setRealHashes, List.zipWith_cons_cons, verifyPendingLoop, hwalk,
              verifySequentially, hsingle]
            rcases hrl : verifyPendingLoop env inode vi mra (setRealHashes rest hs') sv with
              ⟨br, sr, tr2⟩
            rw [hrl] at hih
            simp only [setRealHashes] at hrl
            rw [hrl]
            exact hih.1
          · show (verifyPendingLoop env inode vi mra
                (setRealHashes (b :: rest) (hb :: hs')) s).2.1 = _
            simp only [setRealHashes, List.zipWith_cons_cons, verifyPendingLoop, hwalk,
              verifySequentially, hsingle]
            rcases hrl : verifyPendingLoop env inode vi mra (setRealHashes rest hs') sv with
              ⟨br, sr, tr2⟩
            rw [hrl] at hih
            simp only [setRealHashes] at hrl
            rw [hrl]
            exact hih.2

/-- C3: batch equivalence: flushing a queue of n pending blocks (n at most
MB_MAX) yields the same verdict and the same final memoization state as n
separate single-block verifications in the same FIFO order, provided the
hash-state import and the per-block hashes succeed. -/
theorem claim_C3 (env : VerityEnv) (inode : Inode) (vi : FsverityInfo)
    (mra : Nat) (blocks : List PendingBlock) (s : MemoState)
    (himp : env.importOk = true)
    (hhash : ∀ b ∈ blocks, (vi.tree_params.hashOf b.data).isSome = true)
    (hn : blocks.length ≤ FS_VERITY_MAX_PENDING_DATA_BLOCKS) :
    (fsverity_verify_pending_blocks env
        { inode := inode, vi := vi, max_ra_pages := mra, pending_blocks := blocks } s).1 =
      (verifySequentially env inode vi mra blocks s).1 ∧
    (fsverity_verify_pending_blocks env
        { inode := inode, vi := vi, max_ra_pages := mra, pending_blocks := blocks } s).2.2.1 =
      (verifySequentially env inode vi mra blocks s).2 := by
  by_cases hemp : blocks = []
  · subst hemp
    simp [fsverity_verify_pending_blocks, verifySequentially]
  · obtain ⟨hs, hmb⟩ := finupMB_total vi.tree_params.hashOf (blocks.map (fun b => b.data))
      (by
        intro d hd
        obtain ⟨b, hb, hbe⟩ := List.mem_map.mp hd
        rw [← hbe]
        exact hhash b hb)
    have hflush : fsverity_verify_pending_blocks env
        { inode := inode, vi := vi, max_ra_pages := mra, pending_blocks := blocks } s =
        (match verifyPendingLoop env inode vi mra (setRealHashes blocks hs) s with
          | (false, s1, tr) =>
            (false, mkCtx inode vi mra (setRealHashes blocks hs), s1, tr)
          | (true, s1, tr) =>
            (true, mkCtx inode vi mra [], s1,
              tr ++ (setRealHashes blocks hs).reverse.map (fun b => PageEvent.relData b.pos))) := by
      simp only [fsverity_verify_pending_blocks, fsverity_clear_pending_blocks, mkCtx]
      rw [if_neg (by simpa using hemp), if_neg (by simp [himp])]
      rw [show ({ inode := inode, vi := vi, max_ra_pages := mra, pending_blocks := blocks } : VerificationContext).pending_blocks.map (fun b => b.data) = blocks.map (fun b => b.data) from rfl]
      rw [hmb]
    have heq := loop_eq_seq env inode vi mra himp blocks hs s hmb
    rcases hloop : verifyPendingLoop env inode vi mra (setRealHashes blocks hs) s with
      ⟨bl, sl, tl⟩
    rw [hloop] at heq hflush
    cases bl
    · rw [hflush]
      exact ⟨heq.1.symm ▸ rfl, heq.2.symm ▸ rfl⟩
    · rw [hflush]
      exact ⟨heq.1.symm ▸ rfl, heq.2.symm ▸ rfl⟩

/-- C3 witness: flushing the two-block queue of the concrete file equals
the two single-block verifications in order. -/
theorem claim_C3_witness :
    (fsverity_verify_pending_blocks (envOfTree pages2)
        { inode := inode2, vi := vi2, max_ra_pages := 0,
          pending_blocks := [dblockOk, ⟨[66, 66], 2, []⟩] } memoFresh).1 =
      (verifySequentially (envOfTree pages2) inode2 vi2 0
        [dblockOk, ⟨[66, 66], 2, []⟩] memoFresh).1 ∧
    (fsverity_verify_pending_blocks (envOfTree pages2)
        { inode := inode2, vi := vi2, max_ra_pages := 0,
          pending_blocks := [dblockOk, ⟨[66, 66], 2, []⟩] } memoFresh).2.2.1 =
      (verifySequentially (envOfTree pages2) inode2 vi2 0
        [dblockOk, ⟨[66, 66], 2, []⟩] memoFresh).2 :=
  claim_C3 (envOfTree pages2) inode2 vi2 0 [dblockOk, ⟨[66, 66], 2, []⟩] memoFresh rfl
    (by
      intro b hb
      simp only [List.mem_cons, List.not_mem_nil, or_false] at hb
      rcases hb with h | h
      · subst h
        rfl
      · subst h
        rfl)
    (by decide)

/-- Tree-page resources of a list of held hash-block views. -/
def heldTreeRes (held : List HBlockView) : List Res :=
  held.map (fun v => Res.tree v.pageIdx)

/-- Data-view resources of a pending queue. -/
def pendingDataRes (ps : List PendingBlock) : List Res :=
  ps.map (fun b => Res.data b.pos)

/-- Number of occurrences of resource r in a resource list. -/
def resCount (r : Res) (l : List Res) : Nat :=
  l.countP (fun x => decide (x = r))

/-- Accounting invariant of a trace: resources held before plus resources
acquired equal resources held after plus resources released. -/
def viewInvariant (before after : List Res) (tr : List PageEvent) : Prop :=
  ∀ r : Res, resCount r before + acqCount r tr = resCount r after + relCount r tr

theorem resCount_cons (r x : Res) (l : List Res) :
    resCount r (x :: l) = resCount r l + (if x = r then 1 else 0) := by
  simp [resCount, List.countP_cons]

theorem resCount_nil (r : Res) : resCount r [] = 0 := rfl

theorem acqCount_cons (r : Res) (e : PageEvent) (tr : List PageEvent) :
    acqCount r (e :: tr) = acqCount r tr + (if acqRes e = some r then 1 else 0) := by
  simp [acqCount, List.countP_cons]

theorem relCount_cons (r : Res) (e : PageEvent) (tr : List PageEvent) :
    relCount r (e :: tr) = relCount r tr + (if relRes e = some r then 1 else 0) := by
  simp [relCount, List.countP_cons]

theorem acqCount_append (r : Res) (t1 t2 : List PageEvent) :
    acqCount r (t1 ++ t2) = acqCount r t1 + acqCount r t2 := by
  simp [acqCount, List.countP_append]

theorem relCount_append (r : Res) (t1 t2 : List PageEvent) :
    relCount r (t1 ++ t2) = relCount r t1 + relCount r t2 := by
  simp [relCount, List.countP_append]

theorem viewInvariant_nil (a : List Res) : viewInvariant a a [] := by
  intro r
  rfl

theorem viewInvariant_append {a b c : List Res} {t1 t2 : List PageEvent}
    (h1 : viewInvariant a b t1) (h2 : viewInvariant b c t2) :
    viewInvariant a c (t1 ++ t2) := by
  intro r
  have e1 := h1 r
  have e2 := h2 r
  rw [acqCount_append, relCount_append]
  omega

/-- A balanced trace is exactly the accounting invariant between empty
held-resource lists. -/
theorem balancedTrace_of_viewInvariant {tr : List PageEvent}
    (h : viewInvariant [] [] tr) : balancedTrace tr := by
  intro r
  have := h r
  simpa using this

/-- Releasing every held tree view in order releases exactly the held
resources and acquires nothing. -/
theorem relTree_map_invariant (held : List HBlockView) :
    viewInvariant (heldTreeRes held) []
      (held.map (fun w => PageEvent.relTree w.pageIdx)) := by
  induction held with
  | nil => exact viewInvariant_nil _
  | cons v rest ih =>
    intro r
    have hih := ih r
    by_cases hr : Res.tree v.pageIdx = r <;>
      simp [heldTreeRes, resCount_cons, acqCount_cons, relCount_cons,
        acqRes, relRes, hr] at hih ⊢ <;>
      omega

/-- Releasing every pending data view releases exactly the pending
resources and acquires nothing. -/
theorem relData_map_invariant (ps : List PendingBlock) :
    viewInvariant (pendingDataRes ps) []
      (ps.map (fun b => PageEvent.relData b.pos)) := by
  induction ps with
  | nil => exact viewInvariant_nil _
  | cons b rest ih =>
    intro r
    have hih := ih r
    by_cases hr : Res.data b.pos = r <;>
      simp [pendingDataRes, resCount_cons, acqCount_cons, relCount_cons,
        acqRes, relRes, hr] at hih ⊢ <;>
      omega

/-- Ascent keeps the accounting invariant: the tree pages acquired and not
yet released are exactly the newly held views. -/
theorem ascentLoop_balance (env : VerityEnv) (vi : FsverityInfo) (mra : Nat) :
    ∀ (k level hidx : Nat) (s : MemoState) (held : List HBlockView),
      viewInvariant (heldTreeRes held)
        (heldTreeRes (ascentLoop env vi mra k level hidx s held).2.2.1)
        (ascentLoop env vi mra k level hidx s held).2.2.2 := by
  intro k
  induction k with
  | zero =>
    intro level hidx s held
    exact viewInvariant_nil _
  | succ k ih =>
    intro level hidx s held
    rcases hread : env.treeRead (hpageIdxStep vi level hidx)
        (raHint vi mra level (hpageIdxStep vi level hidx)) with _ | pg
    · simp only [ascentLoop, hread]
      exact viewInvariant_nil _
    · by_cases hv : (is_hash_block_verified vi s (hpageIdxStep vi level hidx)
          (hblockIdxStep vi level hidx)).2.1 = true
      · simp only [ascentLoop, hread, hv, if_true]
        intro r
        rw [acqCount_cons, acqCount_cons, relCount_cons, relCount_cons]
        simp only [acqCount, relCount, List.countP_nil, acqRes, relRes]
        omega
      · simp only [ascentLoop, hread, if_neg hv]
        intro r
        have hih := ih (level + 1) (hidx >>> vi.tree_params.log_arity)
          ((is_hash_block_verified vi s (hpageIdxStep vi level hidx)
            (hblockIdxStep vi level hidx)).1)
          (⟨hpageIdxStep vi level hidx,
            blockSlice vi pg (hblockIdxStep vi level hidx),
            hblockIdxStep vi level hidx, hoffsetStep vi hidx⟩ :: held) r
        by_cases hr : Res.tree (hpageIdxStep vi level hidx) = r <;>
          simp [heldTreeRes, resCount_cons, acqCount_cons, relCount_cons,
            acqRes, relRes, hr] at hih ⊢ <;>
          omega

/-- Descent releases exactly the held views, acquiring nothing. -/
theorem descentLoop_balance (vi : FsverityInfo) :
    ∀ (held : List HBlockView) (want : Bytes) (s : MemoState),
      viewInvariant (heldTreeRes held) [] (descentLoop vi want s held).2.2 := by
  intro held
  induction held with
  | nil =>
    intro want s
    exact viewInvariant_nil _
  | cons v rest ih =>
    intro want s
    rcases hh : vi.tree_params.hashOf v.blockBytes with _ | real_hash
    · simp only [descentLoop, hh]
      exact relTree_map_invariant (v :: rest)
    · by_cases hcmp : real_hash.take vi.tree_params.digest_size =
          want.take vi.tree_params.digest_size
      · simp only [descentLoop, hh, if_pos hcmp]
        intro r
        have hih := ih ((v.blockBytes.drop v.hoffset).take vi.tree_params.digest_size)
          (mark_hash_block_verified vi s v.pageIdx v.index) r
        by_cases hr : Res.tree v.pageIdx = r <;>
          simp [heldTreeRes, resCount_cons, acqCount_cons, relCount_cons,
            acqRes, relRes, hr] at hih ⊢ <;>
          omega
      · simp only [descentLoop, hh, if_neg hcmp]
        exact relTree_map_invariant (v :: rest)

/-- The walk of one data block is balanced: every tree page acquired is
released exactly once, through descent, the already-verified shortcut, or
the error unwind. -/
theorem verify_data_block_balance (env : VerityEnv) (inode : Inode)
    (vi : FsverityInfo) (dblock : PendingBlock) (mra : Nat) (s : MemoState) :
    balancedTrace (verify_data_block env inode vi dblock mra s).2.2 := by
  unfold verify_data_block
  by_cases heof : inode.i_size ≤ dblock.pos
  · rw [if_pos heof]
    by_cases hz : (dblock.data.take vi.tree_params.block_size).any (fun b => b != 0) = true
    · rw [if_pos hz]
      intro r
      rfl
    · rw [if_neg hz]
      intro r
      rfl
  · rw [if_neg heof]
    have hasc := ascentLoop_balance env vi mra vi.tree_params.num_levels 0
      (dblock.pos >>> vi.tree_params.log_blocksize) s []
    rcases ha : (ascentLoop env vi mra vi.tree_params.num_levels 0
        (dblock.pos >>> vi.tree_params.log_blocksize) s []).1 with _ | want
    · simp only [ha]
      apply balancedTrace_of_viewInvariant
      exact viewInvariant_append hasc (relTree_map_invariant _)
    · simp only [ha]
      have hdes := descentLoop_balance vi
        (ascentLoop env vi mra vi.tree_params.num_levels 0
          (dblock.pos >>> vi.tree_params.log_blocksize) s []).2.2.1 want
        (ascentLoop env vi mra vi.tree_params.num_levels 0
          (dblock.pos >>> vi.tree_params.log_blocksize) s []).2.1
      rcases hd : (descentLoop vi want
          (ascentLoop env vi mra vi.tree_params.num_levels 0
            (dblock.pos >>> vi.tree_params.log_blocksize) s []).2.1
          (ascentLoop env vi mra vi.tree_params.num_levels 0
            (dblock.pos >>> vi.tree_params.log_blocksize) s []).2.2.1).1 with _ | fw
      · simp only [hd]
        apply balancedTrace_of_viewInvariant
        exact viewInvariant_append hasc hdes
      · simp only [hd]
        by_cases hcmp : dblock.real_hash.take vi.tree_params.digest_size =
            fw.take vi.tree_params.digest_size
        · rw [if_pos hcmp]
          apply balancedTrace_of_viewInvariant
          exact viewInvariant_append hasc hdes
        · rw [if_neg hcmp]
          apply balancedTrace_of_viewInvariant
          exact viewInvariant_append hasc hdes

theorem resCount_append (r : Res) (a b : List Res) :
    resCount r (a ++ b) = resCount r a + resCount r b := by
  simp [resCount, List.countP_append]

theorem resCount_reverse (r : Res) (l : List Res) :
    resCount r l.reverse = resCount r l := by
  induction l with
  | nil => rfl
  | cons x rest ih =>
    simp [List.reverse_cons, resCount_append, resCount_cons, resCount_nil, ih]

/-- The accounting invariant only depends on the held-resource lists up to
counts. -/
theorem viewInvariant_congr_before {a a' c : List Res} {tr : List PageEvent}
    (hcount : ∀ r, resCount r a = resCount r a')
    (h : viewInvariant a' c tr) : viewInvariant a c tr := by
  intro r
  have h1 := h r
  have h2 := hcount r
  omega

/-- One-step composition of the accounting invariant. -/
theorem viewInvariant_cons {e : PageEvent} {a b c : List Res} {tr : List PageEvent}
    (h1 : viewInvariant a b [e]) (h2 : viewInvariant b c tr) :
    viewInvariant a c (e :: tr) := by
  have := viewInvariant_append h1 h2
  simpa using this

/-- Acquiring one data view appends its resource to the held list. -/
theorem acqData_invariant (a : List Res) (p : Nat) :
    viewInvariant a (a ++ [Res.data p]) [PageEvent.acqData p] := by
  intro r
  by_cases hr : Res.data p = r <;>
    simp [resCount_append, resCount_cons, resCount_nil, acqCount_cons, relCount_cons,
      acqRes, relRes, acqCount, relCount, hr]

/-- A balanced trace is an invariant between equal held lists. -/
theorem viewInvariant_of_balanced {a : List Res} {tr : List PageEvent}
    (h : balancedTrace tr) : viewInvariant a a tr := by
  intro r
  have := h r
  omega

/-- Setting the real hashes preserves the data-view resources. -/
theorem pendingDataRes_setRealHashes (ps : List PendingBlock) (hs : List Bytes)
    (h : ps.length = hs.length) :
    pendingDataRes (setRealHashes ps hs) = pendingDataRes ps := by
  have hmap := map_pos_setRealHashes ps hs h
  unfold pendingDataRes
  calc (setRealHashes ps hs).map (fun b => Res.data b.pos)
      = ((setRealHashes ps hs).map (fun b => b.pos)).map Res.data := by
        rw [List.map_map]
        rfl
    _ = (ps.map (fun b => b.pos)).map Res.data := by rw [hmap]
    _ = ps.map (fun b => Res.data b.pos) := by
        rw [List.map_map]
        rfl

/-- Walking the pending queue is balanced wholesale. -/
theorem verifyPendingLoop_balance (env : VerityEnv) (inode : Inode)
    (vi : FsverityInfo) (mra : Nat) :
    ∀ (ps : List PendingBlock) (s : MemoState),
      balancedTrace (verifyPendingLoop env inode vi mra ps s).2.2 := by
  intro ps
  induction ps with
  | nil =>
    intro s r
    rfl
  | cons b rest ih =>
    intro s
    rcases hw : verify_data_block env inode vi b mra s with ⟨bv, sv, tv⟩
    have hbal : balancedTrace tv := by
      have h := verify_data_block_balance env inode vi b mra s
      rw [hw] at h
      exact h
    cases bv
    · simp only [verifyPendingLoop, hw]
      exact hbal
    · rcases hl : verifyPendingLoop env inode vi mra rest sv with ⟨br, sr, trr⟩
      have hr : balancedTrace trr := by
        have h := ih sv
        rw [hl] at h
        exact h
      simp only [verifyPendingLoop, hw, hl]
      intro r
      rw [acqCount_append, relCount_append]
      have h1 := hbal r
      have h2 := hr r
      omega

/-- Clearing the pending queue releases exactly the held data views. -/
theorem clear_pending_invariant (ctx : VerificationContext) :
    viewInvariant (pendingDataRes ctx.pending_blocks) []
      (fsverity_clear_pending_blocks ctx).2 ∧
    (fsverity_clear_pending_blocks ctx).1.pending_blocks = [] := by
  constructor
  · apply viewInvariant_congr_before
      (fun r => ?_)
      (relData_map_invariant ctx.pending_blocks.reverse)
    unfold pendingDataRes
    rw [List.map_reverse]
    rw [show ((ctx.pending_blocks.map (fun b => Res.data b.pos)).reverse :
      List Res) = (pendingDataRes ctx.pending_blocks).reverse from rfl]
    rw [resCount_reverse]
    rfl
  · rfl

/-- Flushing keeps the accounting invariant for data views, and empties
the queue exactly on success. -/
theorem flush_invariant (env : VerityEnv) (ctx : VerificationContext)
    (s : MemoState) :
    viewInvariant (pendingDataRes ctx.pending_blocks)
      (pendingDataRes (fsverity_verify_pending_blocks env ctx s).2.1.pending_blocks)
      (fsverity_verify_pending_blocks env ctx s).2.2.2 ∧
    ((fsverity_verify_pending_blocks env ctx s).1 = true →
      (fsverity_verify_pending_blocks env ctx s).2.1.pending_blocks = []) := by
  by_cases hemp : ctx.pending_blocks = []
  · constructor
    · simp only [fsverity_verify_pending_blocks, if_pos hemp]
      exact viewInvariant_nil _
    · intro _
      simp only [fsverity_verify_pending_blocks, if_pos hemp]
      exact hemp
  · by_cases himp : env.importOk = false
    · have hres : fsverity_verify_pending_blocks env ctx s = (false, ctx, s, []) := by
        simp [fsverity_verify_pending_blocks, hemp, himp]
      rw [hres]
      exact ⟨viewInvariant_nil _, by intro h; simp at h⟩
    · rcases hmb : finupMB ctx.vi.tree_params.hashOf
          (ctx.pending_blocks.map (fun b => b.data)) with _ | hs
      · have hres : fsverity_verify_pending_blocks env ctx s = (false, ctx, s, []) := by
          simp [fsverity_verify_pending_blocks, hemp, himp, hmb]
        rw [hres]
        exact ⟨viewInvariant_nil _, by intro h; simp at h⟩
      · have hlen : ctx.pending_blocks.length = hs.length := by
          have h := finupMB_length ctx.vi.tree_params.hashOf _ _ hmb
          simpa using h.symm
        rcases hloop : verifyPendingLoop env ctx.inode ctx.vi ctx.max_ra_pages
            (setRealHashes ctx.pending_blocks hs) s with ⟨bl, sl, tl⟩
        have hlb : balancedTrace tl := by
          have h := verifyPendingLoop_balance env ctx.inode ctx.vi ctx.max_ra_pages
            (setRealHashes ctx.pending_blocks hs) s
          rw [hloop] at h
          exact h
        cases bl
        · have hres : fsverity_verify_pending_blocks env ctx s =
              (false, { ctx with pending_blocks := setRealHashes ctx.pending_blocks hs },
                sl, tl) := by
            simp [fsverity_verify_pending_blocks, hemp, himp, hmb, hloop]
          rw [hres]
          constructor
          · rw [show ({ ctx with pending_blocks := setRealHashes ctx.pending_blocks hs } :
              VerificationContext).pending_blocks = setRealHashes ctx.pending_blocks hs from rfl]
            rw [pendingDataRes_setRealHashes ctx.pending_blocks hs hlen]
            exact viewInvariant_of_balanced hlb
          · intro h
            simp at h
        · have hres : fsverity_verify_pending_blocks env ctx s =
              (true, { ctx with pending_blocks := ([] : List PendingBlock) }, sl,
                tl ++ (setRealHashes ctx.pending_blocks hs).reverse.map
                  (fun b => PageEvent.relData b.pos)) := by
            simp [fsverity_verify_pending_blocks, fsverity_clear_pending_blocks,
              hemp, himp, hmb, hloop]
          rw [hres]
          refine ⟨?_, fun _ => rfl⟩
          apply viewInvariant_append (viewInvariant_of_balanced hlb)
          apply viewInvariant_congr_before (fun r => ?_)
            (relData_map_invariant (setRealHashes ctx.pending_blocks hs).reverse)
          unfold pendingDataRes
          rw [List.map_reverse]
          rw [show (((setRealHashes ctx.pending_blocks hs).map
            (fun b => Res.data b.pos)).reverse : List Res) =
            (pendingDataRes (setRealHashes ctx.pending_blocks hs)).reverse from rfl]
          rw [resCount_reverse, pendingDataRes_setRealHashes ctx.pending_blocks hs hlen]
          rfl

/-- The add loop keeps the accounting invariant for data views. -/
theorem addBlocksLoop_invariant (env : VerityEnv) :
    ∀ (count : Nat) (ctx : VerificationContext) (s : MemoState)
      (folio : Folio) (offset : Nat),
      viewInvariant (pendingDataRes ctx.pending_blocks)
        (pendingDataRes (addBlocksLoop env count ctx s folio offset).2.1.pending_blocks)
        (addBlocksLoop env count ctx s folio offset).2.2.2 := by
  intro count
  induction count with
  | zero =>
    intro ctx s folio offset
    exact viewInvariant_nil _
  | succ n ih =>
    intro ctx s folio offset
    have hstep : pendingDataRes
        (ctx.pending_blocks ++ [newPending ctx.vi folio offset]) =
        pendingDataRes ctx.pending_blocks ++ [Res.data (dataPos ctx.vi folio offset)] := by
      simp [pendingDataRes, newPending]
    by_cases hfull : (ctx.pending_blocks ++ [newPending ctx.vi folio offset]).length =
        ctx.vi.tree_params.mb_max_msgs
    · have hflu := flush_invariant env
        { ctx with pending_blocks := ctx.pending_blocks ++ [newPending ctx.vi folio offset] } s
      by_cases hf1 : (fsverity_verify_pending_blocks env
          { ctx with pending_blocks :=
            ctx.pending_blocks ++ [newPending ctx.vi folio offset] } s).1 = true
      · simp only [addBlocksLoop, hstep, hfull, if_pos, hf1, if_true]
        apply viewInvariant_cons (acqData_invariant _ (dataPos ctx.vi folio offset))
        apply viewInvariant_append
        · have h := hflu.1
          rw [show ({ ctx with pending_blocks :=
            ctx.pending_blocks ++ [newPending ctx.vi folio offset] } :
            VerificationContext).pending_blocks =
            ctx.pending_blocks ++ [newPending ctx.vi folio offset] from rfl, hstep] at h
          exact h
        · exact ih _ _ folio _
      · simp only [addBlocksLoop]
        simp only [show ({ ctx with pending_blocks :=
          ctx.pending_blocks ++ [newPending ctx.vi folio offset] } :
          VerificationContext).pending_blocks.length =
          (ctx.pending_blocks ++ [newPending ctx.vi folio offset]).length from rfl, hfull,
          if_true]
        rw [if_neg (by simpa using hf1)]
        apply viewInvariant_cons (acqData_invariant _ (dataPos ctx.vi folio offset))
        have h := hflu.1
        rw [show ({ ctx with pending_blocks :=
          ctx.pending_blocks ++ [newPending ctx.vi folio offset] } :
          VerificationContext).pending_blocks =
          ctx.pending_blocks ++ [newPending ctx.vi folio offset] from rfl, hstep] at h
        exact h
    · simp only [addBlocksLoop]
      rw [if_neg hfull]
      apply viewInvariant_cons (acqData_invariant _ (dataPos ctx.vi folio offset))
      have h := ih { ctx with pending_blocks :=
        ctx.pending_blocks ++ [newPending ctx.vi folio offset] } s folio
        (offset + ctx.vi.tree_params.block_size)
      rw [show ({ ctx with pending_blocks :=
        ctx.pending_blocks ++ [newPending ctx.vi folio offset] } :
        VerificationContext).pending_blocks =
        ctx.pending_blocks ++ [newPending ctx.vi folio offset] from rfl, hstep] at h
      exact h

/-- Adding a range of blocks keeps the accounting invariant. -/
theorem add_data_blocks_invariant (env : VerityEnv) (ctx : VerificationContext)
    (s : MemoState) (folio : Folio) (len offset : Nat) :
    viewInvariant (pendingDataRes ctx.pending_blocks)
      (pendingDataRes
        (fsverity_add_data_blocks env ctx s folio len offset).2.1.pending_blocks)
      (fsverity_add_data_blocks env ctx s folio len offset).2.2.2 := by
  unfold fsverity_add_data_blocks
  by_cases hg1 : len = 0 ∨ ((len ||| offset) &&& (ctx.vi.tree_params.block_size - 1)) ≠ 0
  · rw [if_pos hg1]
    exact viewInvariant_nil _
  · rw [if_neg hg1]
    by_cases hg2 : folio.locked = false ∨ folio.uptodate = true
    · rw [if_pos hg2]
      exact viewInvariant_nil _
    · rw [if_neg hg2]
      exact addBlocksLoop_invariant env _ ctx s folio offset

/-- No mapping leak for the single-folio entry point. -/
theorem verify_blocks_balance (env : VerityEnv) (folio : Folio) (inode : Inode)
    (len offset : Nat) (s : MemoState) :
    balancedTrace (fsverity_verify_blocks env folio inode len offset s).2.2 := by
  rcases hadd : fsverity_add_data_blocks env
      (fsverity_init_verification_context inode 0) s folio len offset with ⟨ba, ca, sa, ta⟩
  have hia : viewInvariant [] (pendingDataRes ca.pending_blocks) ta := by
    have h := add_data_blocks_invariant env
      (fsverity_init_verification_context inode 0) s folio len offset
    rw [hadd] at h
    exact h
  cases ba
  · rcases hcl : fsverity_clear_pending_blocks ca with ⟨cc, tc⟩
    have hic : viewInvariant (pendingDataRes ca.pending_blocks) [] tc := by
      have h := (clear_pending_invariant ca).1
      rw [hcl] at h
      exact h
    simp only [fsverity_verify_blocks, hadd, hcl]
    exact balancedTrace_of_viewInvariant (viewInvariant_append hia hic)
  · rcases hfl : fsverity_verify_pending_blocks env ca sa with ⟨bf, cf, sf, tf⟩
    have hif : viewInvariant (pendingDataRes ca.pending_blocks)
        (pendingDataRes cf.pending_blocks) tf ∧
        (bf = true → cf.pending_blocks = []) := by
      have h := flush_invariant env ca sa
      rw [hfl] at h
      exact h
    cases bf
    · rcases hcl : fsverity_clear_pending_blocks cf with ⟨cc, tc⟩
      have hic : viewInvariant (pendingDataRes cf.pending_blocks) [] tc := by
        have h := (clear_pending_invariant cf).1
        rw [hcl] at h
        exact h
      simp only [fsverity_verify_blocks, hadd, hfl, hcl]
      exact balancedTrace_of_viewInvariant
        (viewInvariant_append hia (viewInvariant_append hif.1 hic))
    · simp only [fsverity_verify_blocks, hadd, hfl]
      have hemp := hif.2 rfl
      apply balancedTrace_of_viewInvariant
      apply viewInvariant_append hia
      rw [← show pendingDataRes cf.pending_blocks = [] from by rw [hemp]; rfl]
      exact hif.1

/-- The bio segment loop keeps the accounting invariant. -/
theorem bioAddLoop_invariant (env : VerityEnv) :
    ∀ (segs : List BioSegment) (ctx : VerificationContext) (s : MemoState),
      viewInvariant (pendingDataRes ctx.pending_blocks)
        (pendingDataRes (bioAddLoop env segs ctx s).2.1.pending_blocks)
        (bioAddLoop env segs ctx s).2.2.2 := by
  intro segs
  induction segs with
  | nil =>
    intro ctx s
    exact viewInvariant_nil _
  | cons seg rest ih =>
    intro ctx s
    rcases hadd : fsverity_add_data_blocks env ctx s seg.folio seg.length seg.offset with
      ⟨ba, ca, sa, ta⟩
    have hia : viewInvariant (pendingDataRes ctx.pending_blocks)
        (pendingDataRes ca.pending_blocks) ta := by
      have h := add_data_blocks_invariant env ctx s seg.folio seg.length seg.offset
      rw [hadd] at h
      exact h
    cases ba
    · simp only [bioAddLoop, hadd]
      exact hia
    · rcases hrest : bioAddLoop env rest ca sa with ⟨br, cr, sr, trr⟩
      have hir := ih ca sa
      rw [hrest] at hir
      simp only [bioAddLoop, hadd, hrest]
      exact viewInvariant_append hia hir

/-- No mapping leak for the bio entry point. -/
theorem verify_bio_balance (env : VerityEnv) (inode : Inode) (bio : Bio)
    (s : MemoState) :
    balancedTrace (fsverity_verify_bio env inode bio s).2.2.2 := by
  rcases hadd : bioAddLoop env bio.segments
      (fsverity_init_verification_context inode (bioMaxRa inode bio)) s with ⟨ba, ca, sa, ta⟩
  have hia : viewInvariant [] (pendingDataRes ca.pending_blocks) ta := by
    have h := bioAddLoop_invariant env bio.segments
      (fsverity_init_verification_context inode (bioMaxRa inode bio)) s
    rw [hadd] at h
    exact h
  cases ba
  · rcases hcl : fsverity_clear_pending_blocks ca with ⟨cc, tc⟩
    have hic : viewInvariant (pendingDataRes ca.pending_blocks) [] tc := by
      have h := (clear_pending_invariant ca).1
      rw [hcl] at h
      exact h
    simp only [fsverity_verify_bio, hadd, hcl]
    exact balancedTrace_of_viewInvariant (viewInvariant_append hia hic)
  · rcases hfl : fsverity_verify_pending_blocks env ca sa with ⟨bf, cf, sf, tf⟩
    have hif : viewInvariant (pendingDataRes ca.pending_blocks)
        (pendingDataRes cf.pending_blocks) tf ∧
        (bf = true → cf.pending_blocks = []) := by
      have h := flush_invariant env ca sa
      rw [hfl] at h
      exact h
    cases bf
    · rcases hcl : fsverity_clear_pending_blocks cf with ⟨cc, tc⟩
      have hic : viewInvariant (pendingDataRes cf.pending_blocks) [] tc := by
        have h := (clear_pending_invariant cf).1
        rw [hcl] at h
        exact h
      simp only [fsverity_verify_bio, hadd, hfl, hcl]
      exact balancedTrace_of_viewInvariant
        (viewInvariant_append hia (viewInvariant_append hif.1 hic))
    · simp only [fsverity_verify_bio, hadd, hfl]
      have hemp := hif.2 rfl
      apply balancedTrace_of_viewInvariant
      apply viewInvariant_append hia
      rw [← show pendingDataRes cf.pending_blocks = [] from by rw [hemp]; rfl]
      exact hif.1

/-- C8: no mapping leak: after every fsverity_verify_blocks or
fsverity_verify_bio return, success or failure, the event trace is
balanced: every tree page pinned and mapped during a walk's ascent, and
every data view mapped while queueing, is released exactly once. -/
theorem claim_C8 (env : VerityEnv) (inode : Inode) (s : MemoState) :
    (∀ (folio : Folio) (len offset : Nat),
      balancedTrace (fsverity_verify_blocks env folio inode len offset s).2.2) ∧
    (∀ bio : Bio,
      balancedTrace (fsverity_verify_bio env inode bio s).2.2.2) := by
  constructor
  · intro folio len offset
    exact verify_blocks_balance env folio inode len offset s
  · intro bio
    exact verify_bio_balance env inode bio s

theorem hidxAt_zero (vi : FsverityInfo) (pos : Nat) :
    hidxAt vi pos 0 = pos >>> vi.tree_params.log_blocksize := by
  simp [hidxAt]

theorem hidxAt_succ (vi : FsverityInfo) (pos l : Nat) :
    hidxAt vi pos (l + 1) = hidxAt vi pos l >>> vi.tree_params.log_arity := by
  unfold hidxAt
  rw [show (l + 1) * vi.tree_params.log_arity =
    l * vi.tree_params.log_arity + vi.tree_params.log_arity by ring]
  rw [Nat.shiftRight_add]

theorem hblockIdxStep_at (vi : FsverityInfo) (pos level : Nat) :
    hblockIdxStep vi level (hidxAt vi pos level) = hblockIdxAt vi pos level := by
  unfold hblockIdxStep hblockIdxAt
  rw [hidxAt_succ]

theorem hpageIdxStep_at (vi : FsverityInfo) (pos level : Nat) :
    hpageIdxStep vi level (hidxAt vi pos level) = hpageIdxAt vi pos level := by
  unfold hpageIdxStep hpageIdxAt
  rw [hblockIdxStep_at]

theorem hoffsetStep_at (vi : FsverityInfo) (pos level : Nat) :
    hoffsetStep vi (hidxAt vi pos level) = hoffsetAt vi pos level := rfl

theorem blockSlice_at (pages : Nat → Bytes) (vi : FsverityInfo) (pos level : Nat) :
    blockSlice vi (pages (hpageIdxAt vi pos level)) (hblockIdxAt vi pos level) =
      hblockBytesAt pages vi pos level := rfl

/-- The answer of the memoization query is exactly memoHit on the input
state. -/
theorem is_hbv_answer (vi : FsverityInfo) (s : MemoState) (p b : Nat) :
    (is_hash_block_verified vi s p b).2.1 = memoHit vi s p b := by
  rcases hbv : vi.hash_block_verified with _ | _ <;>
    by_cases hp : s.pageChecked p = true <;>
    simp [is_hash_block_verified, memoHit, hbv, hp]

/-- A positive memoization query leaves the state unchanged. -/
theorem is_hbv_state_of_hit (vi : FsverityInfo) (s : MemoState) (p b : Nat)
    (h : memoHit vi s p b = true) :
    (is_hash_block_verified vi s p b).1 = s := by
  rcases hbv : vi.hash_block_verified with _ | _ <;>
    by_cases hp : s.pageChecked p = true <;>
    simp [is_hash_block_verified, memoHit, hbv, hp] at h ⊢

/-- The memoization query preserves the soundness invariant: the
bitmap-initialization path clears exactly the bits of the blocks residing
on the queried page, so no new hit can appear. -/
theorem memoSound_is_hbv (pages : Nat → Bytes) (vi : FsverityInfo)
    (s : MemoState) (p b : Nat)
    (hbpp : vi.tree_params.blocks_per_page =
      2 ^ vi.tree_params.log_blocks_per_page)
    (hpb : p = b >>> vi.tree_params.log_blocks_per_page)
    (h : memoSound pages vi s) :
    memoSound pages vi (is_hash_block_verified vi s p b).1 := by
  rcases hbv : vi.hash_block_verified with _ | _
  · simpa [is_hash_block_verified, hbv] using h
  · by_cases hp : s.pageChecked p = true
    · simpa [is_hash_block_verified, hbv, hp] using h
    · intro pos l hl hhit
      apply h pos l hl
      simp only [is_hash_block_verified, hbv] at hhit
      rw [if_neg (by simp)] at hhit
      rw [if_neg (by simp [hp])] at hhit
      simp only [memoHit, hbv, eq_self_iff_true, if_true, Bool.and_eq_true] at hhit ⊢
      set B := hblockIdxAt vi pos l with hB
      set P := hpageIdxAt vi pos l with hP
      have hbit : (if round_down b vi.tree_params.blocks_per_page ≤ B ∧
          B < round_down b vi.tree_params.blocks_per_page + vi.tree_params.blocks_per_page
          then false else s.bitmap B) = true := hhit.2
      by_cases hrange : round_down b vi.tree_params.blocks_per_page ≤ B ∧
          B < round_down b vi.tree_params.blocks_per_page + vi.tree_params.blocks_per_page
      · rw [if_pos hrange] at hbit
        exact absurd hbit (by simp)
      · rw [if_neg hrange] at hbit
        have hPval : (if P = p then true else s.pageChecked P) = true := hhit.1
        by_cases hPp : P = p
        · exfalso
          apply hrange
          have hbpos : 0 < vi.tree_params.blocks_per_page := by
            rw [hbpp]
            exact Nat.pos_pow_of_pos _ (by omega)
          have hdiv : B / vi.tree_params.blocks_per_page =
              b / vi.tree_params.blocks_per_page := by
            have h1 : P = B >>> vi.tree_params.log_blocks_per_page := by
              rw [hP]
              rfl
            have h2 : B >>> vi.tree_params.log_blocks_per_page =
                b >>> vi.tree_params.log_blocks_per_page := by
              rw [← h1, hPp, hpb]
            rw [Nat.shiftRight_eq_div_pow, Nat.shiftRight_eq_div_pow, ← hbpp] at h2
            exact h2
          have hBdm := Nat.div_add_mod B vi.tree_params.blocks_per_page
          have hbdm := Nat.div_add_mod b vi.tree_params.blocks_per_page
          rw [hdiv] at hBdm
          have hBm : B % vi.tree_params.blocks_per_page <
              vi.tree_params.blocks_per_page := Nat.mod_lt _ hbpos
          have hbm : b % vi.tree_params.blocks_per_page <
              vi.tree_params.blocks_per_page := Nat.mod_lt _ hbpos
          unfold round_down
          omega
        · rw [if_neg hPp] at hPval
          exact ⟨hPval, hbit⟩

/-- Characterization of the ascent over a total tree: it stops at some
level m (the first memoization hit, or the root when m = num_levels) with
the target digest of that level, holding exactly the views of the levels
below, in a state that still satisfies the soundness invariant; the chain
above m is consistent, by the invariant at the hit or vacuously at the
root. -/
theorem ascentLoop_spec (pages : Nat → Bytes) (vi : FsverityInfo) (mra pos : Nat)
    (hbpp : vi.tree_params.blocks_per_page =
      2 ^ vi.tree_params.log_blocks_per_page) :
    ∀ (k level : Nat) (s : MemoState),
      level + k = vi.tree_params.num_levels →
      memoSound pages vi s →
      ∃ m s' tr,
        level ≤ m ∧ m ≤ vi.tree_params.num_levels ∧
        ascentLoop (envOfTree pages) vi mra k level (hidxAt vi pos level) s
            (viewsDown pages vi pos level) =
          (some (targetAt pages vi pos m), s', viewsDown pages vi pos m, tr) ∧
        memoSound pages vi s' ∧
        chainOkAbove pages vi pos m ∧
        (m < vi.tree_params.num_levels →
          memoHit vi s' (hpageIdxAt vi pos m) (hblockIdxAt vi pos m) = true) := by
  intro k
  induction k with
  | zero =>
    intro level s hlv hms
    refine ⟨level, s, [], le_refl _, by omega, ?_, hms, ?_, ?_⟩
    · simp only [ascentLoop]
      rw [show targetAt pages vi pos level = vi.root_hash from by
        unfold targetAt
        rw [if_pos (by omega)]]
    · intro l' h1 h2
      exact (by omega : False).elim
    · intro hlow
      exact (by omega : False).elim
  | succ k ih =>
    intro level s hlv hms
    have hlt : level < vi.tree_params.num_levels := by omega
    by_cases hhit : memoHit vi s (hpageIdxAt vi pos level) (hblockIdxAt vi pos level) = true
    · refine ⟨level, s,
        [PageEvent.acqTree (hpageIdxAt vi pos level),
          PageEvent.relTree (hpageIdxAt vi pos level)],
        le_refl _, by omega, ?_, hms, hms pos level hlt hhit, fun _ => hhit⟩
      simp only [ascentLoop, envOfTree]
      simp only [is_hbv_answer, hblockIdxStep_at, hpageIdxStep_at, hoffsetStep_at,
        blockSlice_at]
      rw [if_pos hhit]
      rw [is_hbv_state_of_hit vi s _ _ hhit]
      rw [show targetAt pages vi pos level =
        ((hblockBytesAt pages vi pos level).drop (hoffsetAt vi pos level)).take
          vi.tree_params.digest_size from by
        unfold targetAt
        rw [if_neg (by omega)]]
    · have hms1 : memoSound pages vi
          ((is_hash_block_verified vi s (hpageIdxAt vi pos level)
            (hblockIdxAt vi pos level)).1) :=
        memoSound_is_hbv pages vi s _ _ hbpp rfl hms
      obtain ⟨m, s', tr, hm1, hm2, heq, hms', hchain, hmh⟩ :=
        ih (level + 1)
          ((is_hash_block_verified vi s (hpageIdxAt vi pos level)
            (hblockIdxAt vi pos level)).1)
          (by omega) hms1
      refine ⟨m, s', PageEvent.acqTree (hpageIdxAt vi pos level) :: tr,
        by omega, hm2, ?_, hms', hchain, hmh⟩
      simp only [ascentLoop, envOfTree]
      simp only [is_hbv_answer, hblockIdxStep_at, hpageIdxStep_at, hoffsetStep_at,
        blockSlice_at]
      rw [if_neg (by simpa using hhit)]
      rw [show (⟨hpageIdxAt vi pos level, hblockBytesAt pages vi pos level,
        hblockIdxAt vi pos level, hoffsetAt vi pos level⟩ : HBlockView) ::
        viewsDown pages vi pos level = viewsDown pages vi pos (level + 1) from rfl]
      rw [show hidxAt vi pos level >>> vi.tree_params.log_arity =
        hidxAt vi pos (level + 1) from (hidxAt_succ vi pos level).symm]
      simp only [envOfTree] at heq
      rw [heq]

/-- Marking never clears a bitmap bit. -/
theorem mark_bitmap_mono (vi : FsverityInfo) (s : MemoState) (p b j : Nat)
    (h : s.bitmap j = true) :
    (mark_hash_block_verified vi s p b).bitmap j = true := by
  unfold mark_hash_block_verified
  rcases hbv : vi.hash_block_verified with _ | _
  · simpa [hbv] using h
  · by_cases hj : j = b <;> simp [hbv, hj, h]

/-- Marking in bitmap mode sets the bit of the marked block. -/
theorem mark_bitmap_self (vi : FsverityInfo) (s : MemoState) (p b : Nat)
    (hbv : vi.hash_block_verified = true) :
    (mark_hash_block_verified vi s p b).bitmap b = true := by
  simp [mark_hash_block_verified, hbv]

/-- Characterization of the descent from level m: it succeeds with the
leaf target digest exactly when every level below m is chain-consistent;
on success every descended block is marked (in bitmap mode), and bitmap
bits are never cleared. -/
theorem descentLoop_spec (pages : Nat → Bytes) (vi : FsverityInfo) (pos : Nat) :
    ∀ (m : Nat) (s : MemoState), m ≤ vi.tree_params.num_levels →
      ((∀ l, l < m → hashMatchesAt pages vi pos l) →
        ∃ s' tr,
          descentLoop vi (targetAt pages vi pos m) s (viewsDown pages vi pos m) =
            (some (targetAt pages vi pos 0), s', tr) ∧
          (∀ j, s.bitmap j = true → s'.bitmap j = true) ∧
          (vi.hash_block_verified = true →
            ∀ l, l < m → s'.bitmap (hblockIdxAt vi pos l) = true)) ∧
      (∀ w,
        (descentLoop vi (targetAt pages vi pos m) s (viewsDown pages vi pos m)).1 =
          some w →
        w = targetAt pages vi pos 0 ∧ ∀ l, l < m → hashMatchesAt pages vi pos l) := by
  intro m
  induction m with
  | zero =>
    intro s _hm
    constructor
    · intro _h
      exact ⟨s, [], rfl, fun j h => h, fun _ l hl => absurd hl (by omega)⟩
    · intro w hw
      have hz : descentLoop vi (targetAt pages vi pos 0) s (viewsDown pages vi pos 0) =
          (some (targetAt pages vi pos 0), s, []) := rfl
      rw [hz] at hw
      simp only [Option.some.injEq] at hw
      exact ⟨hw.symm, fun l hl => absurd hl (by omega)⟩
  | succ m ih =>
    intro s hm
    have htm : targetAt pages vi pos m =
        ((hblockBytesAt pages vi pos m).drop (hoffsetAt vi pos m)).take
          vi.tree_params.digest_size := by
      unfold targetAt
      rw [if_neg (by omega)]
    constructor
    · intro hall
      obtain ⟨d, hd, hdt⟩ := hall m (by omega)
      obtain ⟨hsucc, _⟩ := ih (mark_hash_block_verified vi s (hpageIdxAt vi pos m)
        (hblockIdxAt vi pos m)) (by omega)
      obtain ⟨s', tr, heq, hmono, hmarks⟩ := hsucc (fun l hl => hall l (by omega))
      refine ⟨s', PageEvent.relTree (hpageIdxAt vi pos m) :: tr, ?_, ?_, ?_⟩
      · rw [show viewsDown pages vi pos (m + 1) =
          (⟨hpageIdxAt vi pos m, hblockBytesAt pages vi pos m, hblockIdxAt vi pos m,
            hoffsetAt vi pos m⟩ : HBlockView) :: viewsDown pages vi pos m from rfl]
        simp only [descentLoop, hd]
        rw [if_pos hdt]
        rw [show ((hblockBytesAt pages vi pos m).drop (hoffsetAt vi pos m)).take
          vi.tree_params.digest_size = targetAt pages vi pos m from htm.symm]
        rw [heq]
      · intro j hj
        exact hmono j (mark_bitmap_mono vi s _ _ j hj)
      · intro hbv l hl
        rcases Nat.lt_succ_iff_lt_or_eq.mp hl with h | h
        · exact hmarks hbv l h
        · subst h
          exact hmono _ (mark_bitmap_self vi s _ _ hbv)
    · intro w hw
      rw [show viewsDown pages vi pos (m + 1) =
        (⟨hpageIdxAt vi pos m, hblockBytesAt pages vi pos m, hblockIdxAt vi pos m,
          hoffsetAt vi pos m⟩ : HBlockView) :: viewsDown pages vi pos m from rfl] at hw
      rcases hh : vi.tree_params.hashOf (hblockBytesAt pages vi pos m) with _ | d
      · simp only [descentLoop, hh] at hw
        exact absurd hw (by simp)
      · by_cases hcmp : d.take vi.tree_params.digest_size =
            (targetAt pages vi pos (m + 1)).take vi.tree_params.digest_size
        · simp only [descentLoop, hh] at hw
          rw [if_pos hcmp] at hw
          rw [show ((hblockBytesAt pages vi pos m).drop (hoffsetAt vi pos m)).take
            vi.tree_params.digest_size = targetAt pages vi pos m from htm.symm] at hw
          obtain ⟨hw0, hallm⟩ := (ih (mark_hash_block_verified vi s
            (hpageIdxAt vi pos m) (hblockIdxAt vi pos m)) (by omega)).2 w hw
          refine ⟨hw0, ?_⟩
          intro l hl
          rcases Nat.lt_succ_iff_lt_or_eq.mp hl with h | h
          · exact hallm l h
          · subst h
            exact ⟨d, hh, hcmp⟩
        · simp only [descentLoop, hh] at hw
          rw [if_neg hcmp] at hw
          exact absurd hw (by simp)

/-- The fresh memoization state satisfies the soundness invariant. -/
theorem memoSound_fresh (pages : Nat → Bytes) (vi : FsverityInfo) :
    memoSound pages vi memoFresh := by
  intro pos l _hl hhit
  simp [memoHit, memoFresh] at hhit

/-- C1: soundness of verification.  Over a total tree read environment,
with a sound memoization state and the real hash honestly computed from
the body, verify_data_block accepts exactly when the block is past EOF and
all-zero, or in range and authenticated by the tree: the whole hash path
from the root is consistent and the leaf digest is the hash of the
body. -/
theorem claim_C1 (pages : Nat → Bytes) (inode : Inode) (vi : FsverityInfo)
    (dblock : PendingBlock) (mra : Nat) (s : MemoState)
    (hbpp : vi.tree_params.blocks_per_page =
      2 ^ vi.tree_params.log_blocks_per_page)
    (hmemo : memoSound pages vi s)
    (hhash : vi.tree_params.hashOf dblock.data = some dblock.real_hash) :
    (verify_data_block (envOfTree pages) inode vi dblock mra s).1 = true ↔
      ((inode.i_size ≤ dblock.pos ∧
        (dblock.data.take vi.tree_params.block_size).all (fun b => b == 0) = true) ∨
       (dblock.pos < inode.i_size ∧
        treeAuthenticates pages vi dblock.pos dblock.data)) := by
  by_cases heof : inode.i_size ≤ dblock.pos
  · unfold verify_data_block
    rw [if_pos heof]
    by_cases hz :
        (dblock.data.take vi.tree_params.block_size).any (fun b => b != 0) = true
    · rw [if_pos hz]
      simp only [List.any_eq_true, bne_iff_ne] at hz
      obtain ⟨x, hx, hxne⟩ := hz
      constructor
      · intro hco
        exact absurd hco (by simp)
      · intro hrhs
        rcases hrhs with ⟨_, hall⟩ | ⟨hlt, _⟩
        · simp only [List.all_eq_true, beq_iff_eq] at hall
          exact absurd (hall x hx) hxne
        · omega
    · rw [if_neg hz]
      simp only [List.any_eq_true, bne_iff_ne, not_exists, not_and, not_not] at hz
      constructor
      · intro _
        refine Or.inl ⟨heof, ?_⟩
        simp only [List.all_eq_true, beq_iff_eq]
        intro x hx
        exact hz x hx
      · intro _
        rfl
  · have hlt : dblock.pos < inode.i_size := by omega
    obtain ⟨m, s', tr, _hm1, hm2, heq, _hms', hchain, _hmh⟩ :=
      ascentLoop_spec pages vi mra dblock.pos hbpp vi.tree_params.num_levels 0 s
        (by omega) hmemo
    have ha1 : (ascentLoop (envOfTree pages) vi mra vi.tree_params.num_levels 0
        (hidxAt vi dblock.pos 0) s (viewsDown pages vi dblock.pos 0)).1 =
        some (targetAt pages vi dblock.pos m) := by rw [heq]
    have ha21 : (ascentLoop (envOfTree pages) vi mra vi.tree_params.num_levels 0
        (hidxAt vi dblock.pos 0) s (viewsDown pages vi dblock.pos 0)).2.1 = s' := by
      rw [heq]
    have ha221 : (ascentLoop (envOfTree pages) vi mra vi.tree_params.num_levels 0
        (hidxAt vi dblock.pos 0) s (viewsDown pages vi dblock.pos 0)).2.2.1 =
        viewsDown pages vi dblock.pos m := by rw [heq]
    unfold verify_data_block
    rw [if_neg heof]
    rw [show dblock.pos >>> vi.tree_params.log_blocksize = hidxAt vi dblock.pos 0
      from (hidxAt_zero vi dblock.pos).symm]
    rw [show ([] : List HBlockView) = viewsDown pages vi dblock.pos 0 from rfl]
    obtain ⟨hsucc, hrefl⟩ := descentLoop_spec pages vi dblock.pos m s' hm2
    rcases hd : (descentLoop vi (targetAt pages vi dblock.pos m) s'
        (viewsDown pages vi dblock.pos m)).1 with _ | fw
    · simp only [ha1, ha21, ha221, hd]
      constructor
      · intro hco
        exact absurd hco (by simp)
      · intro hrhs
        rcases hrhs with ⟨h1, _⟩ | ⟨_, hauth⟩
        · omega
        · obtain ⟨s'', tr'', heq'', _, _⟩ := hsucc
            (fun l hl => hauth.1 l (by omega) (by omega))
          rw [heq''] at hd
          simp at hd
    · have ⟨hfw, hbelow⟩ := hrefl fw hd
      by_cases hcmp : dblock.real_hash.take vi.tree_params.digest_size =
          fw.take vi.tree_params.digest_size
      · simp only [ha1, ha21, ha221, hd]
        rw [if_pos hcmp]
        constructor
        · intro _
          refine Or.inr ⟨hlt, ?_, dblock.real_hash, hhash, ?_⟩
          · intro l' _h0 hlnl
            by_cases hlm : l' < m
            · exact hbelow l' hlm
            · exact hchain l' (by omega) hlnl
          · rw [hcmp, hfw]
        · intro _
          rfl
      · simp only [ha1, ha21, ha221, hd]
        rw [if_neg hcmp]
        constructor
        · intro hco
          exact absurd hco (by simp)
        · intro hrhs
          rcases hrhs with ⟨h1, _⟩ | ⟨_, _, h, hh', hht⟩
          · omega
          · rw [hhash] at hh'
            simp only [Option.some.injEq] at hh'
            rw [← hh', ← hfw] at hht
            exact absurd hht hcmp

/-- C1 witness: block 0 of the concrete two-block file, hashed honestly,
verifies from the fresh memoization state exactly as the tree
authenticates it. -/
theorem claim_C1_witness :
    (verify_data_block (envOfTree pages2) inode2 vi2 dblockOk 0 memoFresh).1 = true ↔
      ((inode2.i_size ≤ dblockOk.pos ∧
        (dblockOk.data.take vi2.tree_params.block_size).all (fun b => b == 0) = true) ∨
       (dblockOk.pos < inode2.i_size ∧
        treeAuthenticates pages2 vi2 dblockOk.pos dblockOk.data)) :=
  claim_C1 pages2 inode2 vi2 dblockOk 0 memoFresh (by decide)
    (memoSound_fresh pages2 vi2) rfl

/-- C4 amended: when the interior hash chain of the block's path is
consistent but the data block's hash mismatches the leaf digest, the
verification fails AND the memoization bit of the level-0 (leaf) hash
block IS set afterwards: the descent marks a hash block as soon as the
hash block itself verifies, before the final data comparison. -/
theorem claim_C4 (pages : Nat → Bytes) (inode : Inode) (vi : FsverityInfo)
    (dblock : PendingBlock) (mra : Nat) (s : MemoState)
    (hbpp : vi.tree_params.blocks_per_page =
      2 ^ vi.tree_params.log_blocks_per_page)
    (hbv : vi.hash_block_verified = true)
    (hmemo : memoSound pages vi s)
    (hlt : dblock.pos < inode.i_size)
    (hnl : 0 < vi.tree_params.num_levels)
    (hchain0 : chainOkAbove pages vi dblock.pos 0)
    (hmism : dblock.real_hash.take vi.tree_params.digest_size ≠
      (targetAt pages vi dblock.pos 0).take vi.tree_params.digest_size) :
    (verify_data_block (envOfTree pages) inode vi dblock mra s).1 = false ∧
    ((verify_data_block (envOfTree pages) inode vi dblock mra s).2.1).bitmap
      (hblockIdxAt vi dblock.pos 0) = true := by
  have heof : ¬inode.i_size ≤ dblock.pos := by omega
  obtain ⟨m, s', tr, _hm1, hm2, heq, _hms', _hchain, hmh⟩ :=
    ascentLoop_spec pages vi mra dblock.pos hbpp vi.tree_params.num_levels 0 s
      (by omega) hmemo
  have ha1 : (ascentLoop (envOfTree pages) vi mra vi.tree_params.num_levels 0
      (hidxAt vi dblock.pos 0) s (viewsDown pages vi dblock.pos 0)).1 =
      some (targetAt pages vi dblock.pos m) := by rw [heq]
  have ha21 : (ascentLoop (envOfTree pages) vi mra vi.tree_params.num_levels 0
      (hidxAt vi dblock.pos 0) s (viewsDown pages vi dblock.pos 0)).2.1 = s' := by
    rw [heq]
  have ha221 : (ascentLoop (envOfTree pages) vi mra vi.tree_params.num_levels 0
      (hidxAt vi dblock.pos 0) s (viewsDown pages vi dblock.pos 0)).2.2.1 =
      viewsDown pages vi dblock.pos m := by rw [heq]
  obtain ⟨hsucc, _⟩ := descentLoop_spec pages vi dblock.pos m s' hm2
  obtain ⟨s'', tr'', heq'', hmono, hmarks⟩ := hsucc
    (fun l hl => hchain0 l (by omega) (by omega))
  have hd1 : (descentLoop vi (targetAt pages vi dblock.pos m) s'
      (viewsDown pages vi dblock.pos m)).1 =
      some (targetAt pages vi dblock.pos 0) := by rw [heq'']
  have hd21 : (descentLoop vi (targetAt pages vi dblock.pos m) s'
      (viewsDown pages vi dblock.pos m)).2.1 = s'' := by rw [heq'']
  have hbit : s''.bitmap (hblockIdxAt vi dblock.pos 0) = true := by
    by_cases hm0 : m = 0
    · subst hm0
      have hhit := hmh hnl
      simp only [memoHit, hbv, eq_self_iff_true, if_true, Bool.and_eq_true] at hhit
      have hseq : s'' = s' := by
        have : descentLoop vi (targetAt pages vi dblock.pos 0) s'
            (viewsDown pages vi dblock.pos 0) =
            (some (targetAt pages vi dblock.pos 0), s', []) := rfl
        rw [this] at heq''
        simp only [Prod.mk.injEq] at heq''
        exact heq''.2.1.symm
      rw [hseq]
      exact hhit.2
    · exact hmarks hbv 0 (by omega)
  unfold verify_data_block
  rw [if_neg heof]
  rw [show dblock.pos >>> vi.tree_params.log_blocksize = hidxAt vi dblock.pos 0
    from (hidxAt_zero vi dblock.pos).symm]
  rw [show ([] : List HBlockView) = viewsDown pages vi dblock.pos 0 from rfl]
  simp only [ha1, ha21, ha221, hd1, hd21]
  rw [if_neg hmism]
  exact ⟨rfl, hbit⟩

/-- C4 witness of the amended claim: the concrete corrupted block of
scenario S2 scaled down is rejected with the leaf memoization bit set. -/
theorem claim_C4_witness :
    (verify_data_block (envOfTree pages2) inode2 vi2 dblockBad 0 memoFresh).1 = false ∧
    ((verify_data_block (envOfTree pages2) inode2 vi2 dblockBad 0 memoFresh).2.1).bitmap
      (hblockIdxAt vi2 dblockBad.pos 0) = true :=
  claim_C4 pages2 inode2 vi2 dblockBad 0 memoFresh (by decide) rfl
    (memoSound_fresh pages2 vi2) (by decide) (by decide)
    (by
      intro l' h1 h2
      have hl0 : l' = 0 := by
        have : vi2.tree_params.num_levels = 1 := rfl
        omega
      subst hl0
      exact ⟨[184], rfl, rfl⟩)
    (by decide)

end FsVerity
